import Mathlib

set_option maxRecDepth 40000

/-!
Formal model of the `mr.arixv` crawler (source files `main.py` and
`update_readme.py`), as a shallow embedding in Lean 4.

Strings are modelled as `List Char` (`Str`).  Python string operations used by
the source (`str.strip`, `str.split`, `" ".join`, slicing, `rsplit(' ', 1)`,
`re.sub` of a character class, file-line iteration) are modelled char by char.
The network, the filesystem and the clock are modelled as explicit parameters
(an `Env` of oracles, a list of file names, a store text for the progress
ledger).  All definitions are executable so that concrete runs evaluate by
`decide` / `rfl`.
-/

abbrev Str := List Char

/-- The whitespace characters recognised by Python's `str.strip()` and
`str.split()` (ASCII subset, which is all that the crawler ever produces). -/
def isPySpace (c : Char) : Bool :=
  c = ' ' || c = '\t' || c = '\n' || c = '\r' || c.toNat = 11 || c.toNat = 12

/-- Python `s.strip()`: remove leading and trailing whitespace. -/
def pyStrip (s : Str) : Str :=
  ((s.dropWhile isPySpace).reverse.dropWhile isPySpace).reverse

/-- Helper for `pyWords`; the accumulator holds the current word reversed. -/
def pyWordsAux : Str → Str → List Str
  | [], acc => if acc = [] then [] else [acc.reverse]
  | c :: rest, acc =>
    if isPySpace c then
      (if acc = [] then pyWordsAux rest [] else acc.reverse :: pyWordsAux rest [])
    else pyWordsAux rest (c :: acc)

/-- Python `s.split()` with no argument: the maximal whitespace-free runs,
with all whitespace discarded. -/
def pyWords (s : Str) : List Str :=
  pyWordsAux s []

/-- Python `sep.join(words)` for a string separator. -/
def joinWith (sep : Str) : List Str → Str
  | [] => []
  | [w] => w
  | w :: w2 :: ws => w ++ sep ++ joinWith sep (w2 :: ws)

/-- Helper for `splitLines`; the accumulator holds the current line reversed. -/
def splitLinesAux : Str → Str → List Str
  | [], acc => if acc = [] then [] else [acc.reverse]
  | c :: rest, acc =>
    if c = '\n' then acc.reverse :: splitLinesAux rest []
    else splitLinesAux rest (c :: acc)

/-- Iterating over a Python text file yields its newline-terminated lines (the
terminators themselves are dropped here; the caller strips each line anyway,
which removes a trailing `'\n'` exactly as Python's `line.strip()` does).  A
final fragment not terminated by a newline is still yielded. -/
def splitLines (s : Str) : List Str :=
  splitLinesAux s []

/-- Python code-point comparison `s <= t` on strings (lexicographic). -/
def strLe : Str → Str → Bool
  | [], _ => true
  | _ :: _, [] => false
  | a :: as, b :: bs => a.toNat < b.toNat || (a.toNat = b.toNat && strLe as bs)

/-- Descending code-point order, the order used by `sorted(..., reverse=True)`. -/
def descOrder (a b : Str) : Prop := strLe b a = true

instance : DecidableRel descOrder := fun a b =>
  inferInstanceAs (Decidable (strLe b a = true))


/-! ### Calendar dates

`datetime.date` values: the year is bounded by Python's `MINYEAR = 1` and
`MAXYEAR = 9999`, so `strftime('%Y')` is always the zero-padded 4-digit year. -/

structure Date where
  year : Nat
  month : Nat
  day : Nat
deriving DecidableEq, Repr

def isLeap (y : Nat) : Bool :=
  (y % 4 = 0 && !(y % 100 = 0)) || y % 400 = 0

def daysInMonth (y m : Nat) : Nat :=
  if m = 2 then (if isLeap y then 29 else 28)
  else if m = 4 || m = 6 || m = 9 || m = 11 then 30
  else 31

/-- Month/day well-formedness (the part of date validity that the day-loop
arguments need; no upper year bound). -/
def validDM (d : Date) : Bool :=
  1 ≤ d.month && d.month ≤ 12 && 1 ≤ d.day && d.day ≤ daysInMonth d.year d.month

/-- The invariant of every Python `datetime.date` value. -/
def validDate (d : Date) : Bool :=
  1 ≤ d.year && d.year ≤ 9999 && validDM d

/-- `current_date + timedelta(days=1)`. -/
def nextDate (d : Date) : Date :=
  if d.day < daysInMonth d.year d.month then ⟨d.year, d.month, d.day + 1⟩
  else if d.month < 12 then ⟨d.year, d.month + 1, 1⟩
  else ⟨d.year + 1, 1, 1⟩

/-- Python date comparison `a <= b` (lexicographic on year, month, day). -/
def dateLe (a b : Date) : Bool :=
  a.year < b.year ||
    (a.year = b.year &&
      (a.month < b.month || (a.month = b.month && a.day ≤ b.day)))

def digitChar : Nat → Char
  | 0 => '0' | 1 => '1' | 2 => '2' | 3 => '3' | 4 => '4'
  | 5 => '5' | 6 => '6' | 7 => '7' | 8 => '8' | 9 => '9'
  | _ => '?'

def isDigit (c : Char) : Bool := 48 ≤ c.toNat && c.toNat ≤ 57

def digitVal (c : Char) : Nat := c.toNat - 48

/-- Zero-padded 4-digit decimal (`strftime('%Y')` for years `1..9999`). -/
def fmt4 (n : Nat) : Str :=
  [digitChar (n / 1000 % 10), digitChar (n / 100 % 10),
   digitChar (n / 10 % 10), digitChar (n % 10)]

/-- Zero-padded 2-digit decimal (`strftime('%m')` / `strftime('%d')`). -/
def fmt2 (n : Nat) : Str :=
  [digitChar (n / 10 % 10), digitChar (n % 10)]

/-- `current_date.strftime('%Y-%m-%d')`, the ledger day key. -/
def fmtDashed (d : Date) : Str :=
  fmt4 d.year ++ '-' :: (fmt2 d.month ++ '-' :: fmt2 d.day)

/-- `current_date.strftime('%Y%m%d')`, the filename date component. -/
def fmtCompact (d : Date) : Str :=
  fmt4 d.year ++ (fmt2 d.month ++ fmt2 d.day)


/-! ### `main.py`: filename sanitization (lines 36-47) -/

/-- The character class of `re.sub(r'[\\/*?:"<>|]', "", title)`. -/
def isIllegalChar (c : Char) : Bool :=
  c = '\\' || c = '/' || c = '*' || c = '?' || c = ':' || c = '"' ||
    c = '<' || c = '>' || c = '|'

/-- Step 1 of `sanitize_filename`: remove the illegal characters. -/
def stripIllegalChars (s : Str) : Str :=
  s.filter (fun c => !isIllegalChar c)

/-- Step 2 of `sanitize_filename`: `" ".join(sanitized.split())`. -/
def collapseSpaces (s : Str) : Str :=
  joinWith [' '] (pyWords s)

/-- Python `s.rsplit(' ', 1)[0]`: everything before the last `' '`, or `s`
itself when `s` contains no space. -/
def rsplitBeforeLastSpace (s : Str) : Str :=
  if ' ' ∈ s then (((s.reverse.dropWhile (fun c => !(c = ' '))).drop 1).reverse)
  else s

/-- `sanitize_filename` from `main.py` lines 36-47: strip illegal characters,
collapse whitespace runs, truncate past 150 characters at the last space of
the first 150 characters (`sanitized[:150].rsplit(' ', 1)[0]`), final
`strip()`. -/
def sanitize_filename (title : Str) : Str :=
  let s1 := collapseSpaces (stripIllegalChars title)
  let s2 := if 150 < s1.length then rsplitBeforeLastSpace (s1.take 150) else s1
  pyStrip s2

/-! ### `main.py`: the progress ledger (lines 24-34)

The backing store `completed_dates.txt` is modelled as `Option Str`: `none`
when the file does not exist, `some text` for its exact character content. -/

/-- `load_completed_dates` (lines 24-29): missing file gives the empty set;
otherwise the set of stripped lines.  The set is represented as the list of
its members (membership is what every use site consumes). -/
def load_completed_dates (store : Option Str) : List Str :=
  match store with
  | none => []
  | some text => (splitLines text).map pyStrip

/-- `mark_date_as_completed` (lines 31-34): append `day_str + '\n'` to the
file, creating it when absent (mode `'a'`). -/
def mark_date_as_completed (store : Option Str) (day : Str) : Option Str :=
  some (store.getD [] ++ day ++ ['\n'])

/-- A store that the program itself can produce: missing, empty, or
newline-terminated (every `mark_date_as_completed` write ends with `'\n'`). -/
def wfStore : Option Str → Bool
  | none => true
  | some text => text = [] || text.getLast? = some '\n'

/-! ### `main.py`: the crawl loop (lines 49-171)

External effects are oracles in `Env`:
* `pages day offset` is the outcome of the search-API `GET` plus XML decode
  for the given day-scoped query at `start = offset` (`Except.error ()`
  models `requests.exceptions.RequestException` as well as `ET.ParseError`);
* `dlOk url` tells whether the artifact `GET` of `url` succeeds.

`CrawlState` carries the observable state and the event logs: the set of
files in `OUTPUT_DIR`, the ledger store text, and one log entry per search
request, per download request, per missing-link warning and per fatal
pagination error. -/

def RESULTS_PER_REQUEST : Nat := 100

structure Entry where
  title : Str
  pdfLink : Option Str
deriving DecidableEq, Repr

structure Env where
  pages : Date → Nat → Except Unit (List Entry)
  dlOk : Str → Bool

structure CrawlState where
  files : List Str
  ledger : Option Str
  apiLog : List (Date × Nat)
  dlLog : List (Date × Str)
  warnLog : List Str
  errLog : List (Date × Nat)
deriving DecidableEq, Repr

/-- The title as extracted on line 88: `.text.strip().replace('\n', ' ')`. -/
def extractTitle (raw : Str) : Str :=
  (pyStrip raw).map (fun c => if c = '\n' then ' ' else c)

/-- The derived local filename of line 100:
`f"{current_date.strftime('%Y%m%d')}_{sanitized_title}.pdf"`. -/
def entryFilename (day : Date) (title : Str) : Str :=
  fmtCompact day ++ '_' :: (sanitize_filename title ++ ['.', 'p', 'd', 'f'])

/-- Lines 87-115: handle one `<entry>`.  Returns the new state and the number
of files downloaded for this entry (`0` or `1`). -/
def processEntry (env : Env) (day : Date) (st : CrawlState) (e : Entry) :
    CrawlState × Nat :=
  let title := extractTitle e.title
  match e.pdfLink with
  | none => ({ st with warnLog := st.warnLog ++ [title] }, 0)
  | some url =>
    let filename := entryFilename day title
    if filename ∈ st.files then (st, 0)
    else
      let st1 := { st with dlLog := st.dlLog ++ [(day, url)] }
      if env.dlOk url then ({ st1 with files := st1.files ++ [filename] }, 1)
      else (st1, 0)

/-- The `for entry in entries` loop, threading the running download count. -/
def processEntries (env : Env) (day : Date) :
    CrawlState → Nat → List Entry → CrawlState × Nat
  | st, count, [] => (st, count)
  | st, count, e :: es =>
    let p := processEntry env day st e
    processEntries env day p.1 (count + p.2) es

/-- The `while True` pagination loop of `search_and_download_for_day`
(lines 65-129), with explicit fuel (the Python loop has none; every claim
about it is stated for sufficient fuel).  Each iteration logs its request,
then: transport/decode error → log and break (lines 124-129); empty page →
break (lines 83-85); otherwise process the entries, break when the page is
short (lines 117-119), else advance `start_index` by `len(entries)`. -/
def pageLoop (env : Env) (day : Date) :
    Nat → Nat → CrawlState → Nat → CrawlState × Nat
  | 0, _, st, count => (st, count)
  | fuel + 1, offset, st, count =>
    let st0 := { st with apiLog := st.apiLog ++ [(day, offset)] }
    match env.pages day offset with
    | Except.error _ => ({ st0 with errLog := st0.errLog ++ [(day, offset)] }, count)
    | Except.ok entries =>
      if entries = [] then (st0, count)
      else
        let p := processEntries env day st0 count entries
        if entries.length < RESULTS_PER_REQUEST then p
        else pageLoop env day fuel (offset + entries.length) p.1 p.2

/-- `search_and_download_for_day` (lines 49-131): run the pagination loop from
`start_index = 0` with `total_downloaded_today = 0`. -/
def search_and_download_for_day (env : Env) (pageFuel : Nat) (day : Date)
    (st : CrawlState) : CrawlState × Nat :=
  pageLoop env day pageFuel 0 st 0

/-- The day loop of `main` (lines 150-167): `completed` is the set loaded once
at startup (line 143) and never re-read; a day already in it is skipped with
no API traffic; otherwise the day is crawled and then unconditionally marked. -/
def mainLoop (env : Env) (pageFuel : Nat) (completed : List Str) (endD : Date) :
    Nat → Date → CrawlState → Nat → CrawlState × Nat
  | 0, _, st, total => (st, total)
  | fuel + 1, current, st, total =>
    if dateLe current endD then
      if fmtDashed current ∈ completed then
        mainLoop env pageFuel completed endD fuel (nextDate current) st total
      else
        let p := search_and_download_for_day env pageFuel current st
        let st2 := { p.1 with ledger := mark_date_as_completed p.1.ledger (fmtDashed current) }
        mainLoop env pageFuel completed endD fuel (nextDate current) st2 (total + p.2)
    else (st, total)

/-- `main` (lines 133-171) restricted to its observable behaviour: load the
ledger once, then drive the day loop from `START_DATE` to `date.today()`.
Returns the final state and `total_downloaded_all_time`. -/
def runMain (env : Env) (pageFuel fuel : Nat) (startD endD : Date)
    (st : CrawlState) : CrawlState × Nat :=
  mainLoop env pageFuel (load_completed_dates st.ledger) endD fuel startD st 0

/-- `loopDone fuel start endD` holds exactly when `fuel` iterations suffice
for the day loop to reach its exit condition `current_date > end_date` (the
Python loop always runs to that condition; the fuel is an artifact of the
embedding). -/
def loopDone : Nat → Date → Date → Bool
  | 0, cur, endD => !dateLe cur endD
  | fuel + 1, cur, endD =>
    if dateLe cur endD then loopDone fuel (nextDate cur) endD else true

/-! ### `update_readme.py`: index generation -/

def pdfExt : Str := ['.', 'p', 'd', 'f']

/-- Python `f.endswith('.pdf')`. -/
def endsWithPdf (f : Str) : Bool :=
  pdfExt.isSuffixOf f

/-- Python `filename.split('_', 1)`: `none` models the one-element result that
makes `parts[1]` raise `IndexError` (filename without an underscore). -/
def splitFirstUnderscore (f : Str) : Option (Str × Str) :=
  if '_' ∈ f then
    some (f.takeWhile (fun c => !(c = '_')), (f.dropWhile (fun c => !(c = '_'))).tail)
  else none

/-- The calendar-validity check inside `strptime`. -/
def checkDate (y m d : Nat) : Option Date :=
  if 1 ≤ y ∧ 1 ≤ m ∧ m ≤ 12 ∧ 1 ≤ d ∧ d ≤ daysInMonth y m then some ⟨y, m, d⟩ else none

/-- `datetime.strptime(date_str, '%Y%m%d')` on the 8-character zero-padded
strings at hand: exactly eight digits forming a valid calendar date.  (This is
the whole domain the generator ever sees; `strptime`'s behaviour on other
lengths is out of scope and such inputs are treated as `ValueError`.) -/
def parseCompact (s : Str) : Option Date :=
  match s with
  | [y1, y2, y3, y4, m1, m2, d1, d2] =>
    if (isDigit y1 && isDigit y2 && isDigit y3 && isDigit y4 &&
        isDigit m1 && isDigit m2 && isDigit d1 && isDigit d2) then
      checkDate (1000 * digitVal y1 + 100 * digitVal y2 + 10 * digitVal y3 + digitVal y4)
        (10 * digitVal m1 + digitVal m2) (10 * digitVal d1 + digitVal d2)
    else none
  | _ => none

/-- `os.path.splitext(s)[0]`: drop the extension, i.e. everything from the
last `'.'` on, except that a leading run of dots never starts an extension. -/
def removeExt (s : Str) : Str :=
  let lead := (s.takeWhile (fun c => c = '.')).length
  let rest := s.drop lead
  if '.' ∈ rest then
    s.take (s.length - ((s.reverse.takeWhile (fun c => !(c = '.'))).length + 1))
  else s

/-- One markdown bullet: `f"- **{formatted_date}**: {title}"`. -/
def bulletLine (d : Date) (title : Str) : Str :=
  ('-' :: ' ' :: '*' :: '*' :: fmtDashed d) ++ ('*' :: '*' :: ':' :: ' ' :: title)

/-- Lines 28-46 of `update_readme.py` for one filename: `none` models the
`except (IndexError, ValueError): continue` skip of a malformed name. -/
def readmeItem (f : Str) : Option Str :=
  match splitFirstUnderscore f with
  | none => none
  | some (datePart, titleWithExt) =>
    match parseCompact datePart with
    | none => none
    | some d => some (bulletLine d (removeExt titleWithExt))

/-- The fixed header of lines 12-15, parameterised by the
`datetime.now().strftime('%Y-%m-%d %H:%M:%S')` text. -/
def headerText (nowStr : Str) : Str :=
  ("# VDB & ANNS Papers\n\nA curated list of papers related to vector search and ANNS, automatically updated.\n\nLast updated: ").toList
    ++ nowStr ++ ("\n\n---\n\n").toList

/-- `generate_readme_content` (lines 8-51).  The directory is `none` when
`PAPER_DIR` does not exist, otherwise the list of names it contains. -/
def generate_readme_content (nowStr : Str) (dir : Option (List Str)) : Str :=
  let header := headerText nowStr
  match dir with
  | none => header ++ ("No papers found yet. The 'paper' directory is missing.").toList
  | some names =>
    let filenames := List.insertionSort descOrder (names.filter endsWithPdf)
    let papers := filenames.filterMap readmeItem
    if papers = [] then header ++ ("No papers found in the 'paper' directory.").toList
    else header ++ joinWith ['\n'] papers

/-! ### Whole-year mode record filter

Modelled from the spec: the whole-year variant of the Record Filter is not
present under `src/`; the spec (§4.2, §8) defines it as: compare
`record.timestamp.year` to the target year — equal → evaluate for download,
less-than → emit StopPagination (sound because pages arrive in descending
time order), greater-than → no-op continue. -/

inductive YearDecision where
  | evaluate
  | continueNoOp
  | stopPagination
deriving DecidableEq, Repr

/-- Modelled from the spec: `classify(record, window)` in whole-year mode,
applied to the record's timestamp year. -/
def classifyYear (targetYear recYear : Nat) : YearDecision :=
  if recYear = targetYear then YearDecision.evaluate
  else if recYear < targetYear then YearDecision.stopPagination
  else YearDecision.continueNoOp

/-- Modelled from the spec: scanning one descending-time-sorted page in
whole-year mode; classification stops at (and includes) the first
StopPagination, and no later record is evaluated.  The result pairs each
evaluated record year with its decision. -/
def scanYearPage (targetYear : Nat) : List Nat → List (Nat × YearDecision)
  | [] => []
  | y :: ys =>
    let d := classifyYear targetYear y
    if d = YearDecision.stopPagination then [(y, d)]
    else (y, d) :: scanYearPage targetYear ys

/-! ### Concrete states and environments used by the evaluation theorems -/

/-- "no two adjacent spaces", the shape `" ".join(s.split())` guarantees. -/
def noDblSpace (a b : Char) : Prop := ¬(a = ' ' ∧ b = ' ')

/-- A remote endpoint whose search API always fails
(`requests.exceptions.RequestException` / `ET.ParseError`). -/
def envErr : Env := ⟨fun _ _ => Except.error (), fun _ => true⟩

/-- The state of a first run: no files, no ledger file, empty logs. -/
def emptyState : CrawlState := ⟨[], none, [], [], [], []⟩

/-- An environment for evaluating pagination: page 0 is 100 identical
entries with no artifact link, later pages are empty. -/
def envFull : Env :=
  ⟨fun _ offset =>
      if offset = 0 then Except.ok (List.replicate 100 ⟨('t' :: []), none⟩)
      else Except.ok [],
    fun _ => false⟩

/-- An environment whose unique page is a single record. -/
def envShort : Env :=
  ⟨fun _ _ => Except.ok [⟨('t' :: []), none⟩], fun _ => false⟩

/-- A page of 100 records, half with no PDF link and half whose download
fails; later pages empty. -/
def esC6 : List Entry :=
  List.replicate 50 ⟨('t' :: []), none⟩ ++ List.replicate 50 ⟨('t' :: []), some ('u' :: [])⟩

def envC6 : Env :=
  ⟨fun _ offset => if offset = 0 then Except.ok esC6 else Except.ok [], fun _ => false⟩

/-- An endpoint whose day queries all decode to an empty page. -/
def envEmpty : Env := ⟨fun _ _ => Except.ok [], fun _ => true⟩

/-- A first-run state whose ledger already records `2025-01-01`. -/
def stC8 : CrawlState := ⟨[], some (("2025-01-01\n").toList), [], [], [], []⟩

/-- A remote corpus with one new paper on the single day of the range. -/
def envC2 : Env :=
  ⟨fun _ offset =>
      if offset = 0 then Except.ok [⟨('A' :: ' ' :: 'P' :: []), some ('u' :: [])⟩]
      else Except.ok [],
    fun _ => true⟩

/-- A state already holding the file that `envC2`'s record derives. -/
def stC2 : CrawlState :=
  ⟨[entryFilename ⟨2025, 1, 1⟩ (extractTitle ('A' :: ' ' :: 'P' :: []))], none, [], [], [], []⟩

/-! ### Order lemmas for sorting and dates -/

theorem strLe_total (a b : Str) : strLe a b = true ∨ strLe b a = true := by
  induction a generalizing b with
  | nil => exact Or.inl rfl
  | cons x as ih =>
    cases b with
    | nil => exact Or.inr rfl
    | cons y bs =>
      rcases Nat.lt_trichotomy x.toNat y.toNat with h | h | h
      · exact Or.inl (by simp [strLe, h])
      · rcases ih bs with h2 | h2
        · exact Or.inl (by simp [strLe, h, h2])
        · exact Or.inr (by simp [strLe, h.symm, h2])
      · exact Or.inr (by simp [strLe, h])

theorem strLe_trans {a b c : Str} (h1 : strLe a b = true) (h2 : strLe b c = true) :
    strLe a c = true := by
  induction a generalizing b c with
  | nil => rfl
  | cons x as ih =>
    cases b with
    | nil => simp [strLe] at h1
    | cons y bs =>
      cases c with
      | nil => simp [strLe] at h2
      | cons z cs =>
        simp only [strLe, Bool.or_eq_true, Bool.and_eq_true, decide_eq_true_eq] at h1 h2 ⊢
        rcases h1 with h1 | ⟨h1e, h1r⟩
        · rcases h2 with h2 | ⟨h2e, h2r⟩
          · exact Or.inl (Nat.lt_trans h1 h2)
          · exact Or.inl (h2e ▸ h1)
        · rcases h2 with h2 | ⟨h2e, h2r⟩
          · exact Or.inl (h1e ▸ h2)
          · exact Or.inr ⟨h1e.trans h2e, ih h1r h2r⟩

instance : IsTotal Str descOrder :=
  ⟨fun a b => strLe_total b a⟩

instance : IsTrans Str descOrder :=
  ⟨fun _ _ _ h1 h2 => strLe_trans h2 h1⟩

theorem daysInMonth_pos (y m : Nat) : 28 ≤ daysInMonth y m := by
  unfold daysInMonth
  split
  · split <;> omega
  · split <;> omega

theorem daysInMonth_le (y m : Nat) : daysInMonth y m ≤ 31 := by
  unfold daysInMonth
  split
  · split <;> omega
  · split <;> omega

theorem dateLe_refl (a : Date) : dateLe a a = true := by
  simp [dateLe]

theorem dateLe_trans {a b c : Date} (h1 : dateLe a b = true) (h2 : dateLe b c = true) :
    dateLe a c = true := by
  simp only [dateLe, Bool.or_eq_true, Bool.and_eq_true, decide_eq_true_eq] at h1 h2 ⊢
  omega

theorem dateLe_self_next (a : Date) : dateLe a (nextDate a) = true := by
  unfold nextDate
  split
  · simp [dateLe]
  · split
    · simp [dateLe]
    · simp [dateLe]

theorem not_dateLe_next_self (a : Date) : dateLe (nextDate a) a = false := by
  unfold nextDate
  split
  · simp [dateLe]
  · split
    · simp [dateLe]
    · simp [dateLe]

theorem validDM_nextDate {a : Date} (h : validDM a = true) :
    validDM (nextDate a) = true := by
  simp only [validDM, Bool.and_eq_true, decide_eq_true_eq] at h
  obtain ⟨⟨⟨h3, h4⟩, h5⟩, h6⟩ := h
  unfold nextDate
  split
  · simp only [validDM, Bool.and_eq_true, decide_eq_true_eq]
    omega
  · split
    · have := daysInMonth_pos a.year (a.month + 1)
      simp only [validDM, Bool.and_eq_true, decide_eq_true_eq]
      omega
    · have := daysInMonth_pos (a.year + 1) 1
      simp only [validDM, Bool.and_eq_true, decide_eq_true_eq]
      omega

theorem validDM_of_validDate {a : Date} (h : validDate a = true) : validDM a = true := by
  simp only [validDate, Bool.and_eq_true] at h
  exact h.2

/-- For valid dates, `nextDate` is the immediate successor: anything strictly
above `a` is at or above `nextDate a`. -/
theorem dateLe_next_of_lt {a d : Date} (ha : validDM a = true)
    (hd : validDM d = true) (hle : dateLe a d = true) (hne : a ≠ d) :
    dateLe (nextDate a) d = true := by
  simp only [validDM, Bool.and_eq_true, decide_eq_true_eq] at ha hd
  obtain ⟨⟨⟨ha3, ha4⟩, ha5⟩, ha6⟩ := ha
  obtain ⟨⟨⟨hd3, hd4⟩, hd5⟩, hd6⟩ := hd
  have hne' : a.year ≠ d.year ∨ a.month ≠ d.month ∨ a.day ≠ d.day := by
    by_contra hcon
    push_neg at hcon
    exact hne (by cases a; cases d; simp_all)
  simp only [dateLe, Bool.or_eq_true, Bool.and_eq_true, decide_eq_true_eq] at hle
  unfold nextDate
  split
  · simp only [dateLe, Bool.or_eq_true, Bool.and_eq_true, decide_eq_true_eq]
    omega
  · rename_i hcut
    by_cases hy : a.year = d.year
    · by_cases hm : a.month = d.month
      · exfalso
        have hdim : d.day ≤ daysInMonth a.year a.month := by
          rw [hy, hm]; exact hd6
        omega
      · split
        · simp only [dateLe, Bool.or_eq_true, Bool.and_eq_true, decide_eq_true_eq]
          omega
        · exfalso
          omega
    · split
      · simp only [dateLe, Bool.or_eq_true, Bool.and_eq_true, decide_eq_true_eq]
        omega
      · simp only [dateLe, Bool.or_eq_true, Bool.and_eq_true, decide_eq_true_eq]
        omega

/-! ### Properties of the sanitization pipeline -/


theorem noDblSpace_symm {a b : Char} (h : noDblSpace a b) : noDblSpace b a :=
  fun hc => h ⟨hc.2, hc.1⟩

theorem dropWhile_head_not (p : Char → Bool) (l : Str) :
    ∀ c ∈ (l.dropWhile p).head?, p c = false := by
  induction l with
  | nil => simp [List.dropWhile]
  | cons a l ih =>
    rw [List.dropWhile_cons]
    split
    · exact ih
    · rename_i h
      intro c hc
      simp only [List.head?_cons, Option.mem_def, Option.some.injEq] at hc
      subst hc
      simpa using h

theorem dropWhile_eq_self_of_head (p : Char → Bool) (l : Str)
    (h : ∀ c ∈ l.head?, p c = false) : l.dropWhile p = l := by
  cases l with
  | nil => rfl
  | cons a l =>
    rw [List.dropWhile_cons, if_neg]
    have := h a (by simp)
    simp [this]

theorem pyStrip_subset (l : Str) : ∀ c ∈ pyStrip l, c ∈ l := by
  intro c hc
  unfold pyStrip at hc
  rw [List.mem_reverse] at hc
  have hc2 := (List.dropWhile_suffix isPySpace).subset hc
  rw [List.mem_reverse] at hc2
  exact (List.dropWhile_suffix isPySpace).subset hc2

theorem pyStrip_length_le (l : Str) : (pyStrip l).length ≤ l.length := by
  unfold pyStrip
  rw [List.length_reverse]
  calc ((l.dropWhile isPySpace).reverse.dropWhile isPySpace).length
      ≤ (l.dropWhile isPySpace).reverse.length :=
        (List.dropWhile_suffix isPySpace).sublist.length_le
    _ = (l.dropWhile isPySpace).length := List.length_reverse _
    _ ≤ l.length := (List.dropWhile_suffix isPySpace).sublist.length_le

theorem pyStrip_getLast (l : Str) :
    ∀ c ∈ (pyStrip l).getLast?, isPySpace c = false := by
  intro c hc
  unfold pyStrip at hc
  rw [List.getLast?_reverse] at hc
  exact dropWhile_head_not _ _ c hc

theorem pyStrip_head (l : Str) :
    ∀ c ∈ (pyStrip l).head?, isPySpace c = false := by
  intro c hc
  unfold pyStrip at hc
  rw [List.head?_reverse] at hc
  set z := l.dropWhile isPySpace with hz
  set u := z.reverse.dropWhile isPySpace with hu
  rcases List.eq_nil_or_concat u with h0 | ⟨v, a, hva⟩
  · rw [h0] at hc; simp at hc
  · obtain ⟨w, hw⟩ := List.dropWhile_suffix (l := z.reverse) isPySpace
    have hne : u ≠ [] := by rw [hva]; simp
    have h1 : u.getLast? = z.reverse.getLast? := by
      rw [← hw]; exact (List.getLast?_append_of_ne_nil w hne).symm
    rw [h1, List.getLast?_reverse] at hc
    exact dropWhile_head_not _ _ c hc

theorem pyStrip_eq_self (l : Str) (h1 : ∀ c ∈ l.head?, isPySpace c = false)
    (h2 : ∀ c ∈ l.getLast?, isPySpace c = false) : pyStrip l = l := by
  unfold pyStrip
  rw [dropWhile_eq_self_of_head _ _ h1]
  rw [dropWhile_eq_self_of_head]
  · exact List.reverse_reverse l
  · intro c hc
    rw [List.head?_reverse] at hc
    exact h2 c hc

theorem chain'_reverse_noDbl {l : Str} (h : List.Chain' noDblSpace l) :
    List.Chain' noDblSpace l.reverse :=
  List.chain'_reverse.mpr (h.imp fun _ _ hab => noDblSpace_symm hab)

theorem chain'_pyStrip {l : Str} (h : List.Chain' noDblSpace l) :
    List.Chain' noDblSpace (pyStrip l) := by
  unfold pyStrip
  apply chain'_reverse_noDbl
  apply List.Chain'.suffix _ (List.dropWhile_suffix isPySpace)
  apply chain'_reverse_noDbl
  exact List.Chain'.suffix h (List.dropWhile_suffix isPySpace)

theorem rsplit_spec (s : Str) (h : ' ' ∈ s) :
    ∃ t, s = rsplitBeforeLastSpace s ++ ' ' :: t ∧ ∀ c ∈ t, c ≠ ' ' := by
  unfold rsplitBeforeLastSpace
  rw [if_pos h]
  have hsplit := List.takeWhile_append_dropWhile (fun c => !(c = ' ')) s.reverse
  set w := s.reverse.takeWhile (fun c => !(c = ' ')) with hwdef
  set u := s.reverse.dropWhile (fun c => !(c = ' ')) with hudef
  have hune : u ≠ [] := by
    intro h0
    rw [h0, List.append_nil] at hsplit
    have : ' ' ∈ s.reverse := List.mem_reverse.mpr h
    rw [← hsplit] at this
    have := List.mem_takeWhile_imp this
    simp at this
  rcases u with _ | ⟨a, v⟩
  · exact absurd rfl hune
  · have ha : a = ' ' := by
      have := dropWhile_head_not (fun c => !(c = ' ')) s.reverse a (by rw [← hudef]; simp)
      simpa using this
    subst ha
    refine ⟨w.reverse, ?_, ?_⟩
    · have hs : s = (w ++ ' ' :: v).reverse := by rw [hsplit, List.reverse_reverse]
      rw [hs]
      simp only [List.reverse_append, List.reverse_cons, List.drop_succ_cons,
        List.drop_zero]
      simp
    · intro c hc
      rw [List.mem_reverse] at hc
      have := List.mem_takeWhile_imp hc
      simpa using this

theorem pyWordsAux_props (s : Str) :
    ∀ acc, (∀ c ∈ acc, isPySpace c = false) →
      ∀ w ∈ pyWordsAux s acc, w ≠ [] ∧ ∀ c ∈ w, isPySpace c = false ∧ (c ∈ s ∨ c ∈ acc) := by
  induction s with
  | nil =>
    intro acc hacc w hw
    unfold pyWordsAux at hw
    split at hw
    · simp at hw
    · rename_i hne
      simp only [List.mem_singleton] at hw
      subst hw
      refine ⟨by simpa using hne, ?_⟩
      intro c hc
      rw [List.mem_reverse] at hc
      exact ⟨hacc c hc, Or.inr hc⟩
  | cons a s ih =>
    intro acc hacc w hw
    unfold pyWordsAux at hw
    split at hw
    · split at hw
      · obtain ⟨h1, h2⟩ := ih [] (by simp) w hw
        exact ⟨h1, fun c hc => ⟨(h2 c hc).1, by
          rcases (h2 c hc).2 with h | h
          · exact Or.inl (List.mem_cons_of_mem a h)
          · simp at h⟩⟩
      · rcases List.mem_cons.mp hw with hw | hw
        · subst hw
          rename_i hne
          refine ⟨by simpa using hne, ?_⟩
          intro c hc
          rw [List.mem_reverse] at hc
          exact ⟨hacc c hc, Or.inr hc⟩
        · obtain ⟨h1, h2⟩ := ih [] (by simp) w hw
          exact ⟨h1, fun c hc => ⟨(h2 c hc).1, by
            rcases (h2 c hc).2 with h | h
            · exact Or.inl (List.mem_cons_of_mem a h)
            · simp at h⟩⟩
    · rename_i hsp
      obtain ⟨h1, h2⟩ := ih (a :: acc)
        (by
          intro c hc
          rcases List.mem_cons.mp hc with h | h
          · subst h; simpa using hsp
          · exact hacc c h)
        w hw
      refine ⟨h1, ?_⟩
      intro c hc
      refine ⟨(h2 c hc).1, ?_⟩
      rcases (h2 c hc).2 with h | h
      · exact Or.inl (List.mem_cons_of_mem a h)
      · rcases List.mem_cons.mp h with h | h
        · exact Or.inl (h ▸ List.mem_cons_self a s)
        · exact Or.inr h

theorem pyWords_props (s : Str) :
    ∀ w ∈ pyWords s, w ≠ [] ∧ ∀ c ∈ w, isPySpace c = false ∧ c ∈ s := by
  intro w hw
  obtain ⟨h1, h2⟩ := pyWordsAux_props s [] (by simp) w hw
  refine ⟨h1, fun c hc => ⟨(h2 c hc).1, ?_⟩⟩
  rcases (h2 c hc).2 with h | h
  · exact h
  · simp at h

theorem chain'_noDbl_of_no_space {l : Str} (h : ∀ c ∈ l, ¬ c = ' ') :
    List.Chain' noDblSpace l := by
  induction l with
  | nil => exact List.chain'_nil
  | cons a l ih =>
    rw [List.chain'_cons']
    refine ⟨?_, ih fun c hc => h c (List.mem_cons_of_mem a hc)⟩
    intro y _
    exact fun hc => h a (List.mem_cons_self a l) hc.1

theorem joinWith_space_props (ws : List Str)
    (h : ∀ w ∈ ws, w ≠ [] ∧ ∀ c ∈ w, isPySpace c = false) :
    (∀ c ∈ joinWith [' '] ws, c = ' ' ∨ (isPySpace c = false ∧ ∃ w ∈ ws, c ∈ w)) ∧
      List.Chain' noDblSpace (joinWith [' '] ws) ∧
      (∀ c ∈ (joinWith [' '] ws).head?, isPySpace c = false) ∧
      (∀ c ∈ (joinWith [' '] ws).getLast?, isPySpace c = false) ∧
      (ws ≠ [] → joinWith [' '] ws ≠ []) := by
  induction ws with
  | nil => simp [joinWith]
  | cons w ws ih =>
    rcases ws with _ | ⟨w2, ws'⟩
    · have hw := h w (by simp)
      refine ⟨?_, ?_, ?_, ?_, ?_⟩
      · intro c hc
        exact Or.inr ⟨(hw.2 c hc), ⟨w, by simp, hc⟩⟩
      · exact chain'_noDbl_of_no_space fun c hc hsp =>
          by have := hw.2 c hc; rw [hsp] at this; simp [isPySpace] at this
      · intro c hc
        exact hw.2 c (List.mem_of_mem_head? hc)
      · intro c hc
        exact hw.2 c (List.mem_of_mem_getLast? hc)
      · intro _
        exact hw.1
    · have hw := h w (by simp)
      have ihh := ih (fun v hv => h v (List.mem_cons_of_mem w hv))
      have hjoin : joinWith [' '] (w :: w2 :: ws') = w ++ ' ' :: joinWith [' '] (w2 :: ws') := by
        change (w ++ [' ']) ++ joinWith [' '] (w2 :: ws') = _
        rw [List.append_assoc]
        rfl
      have hne2 : joinWith [' '] (w2 :: ws') ≠ [] := ihh.2.2.2.2 (by simp)
      rw [hjoin]
      refine ⟨?_, ?_, ?_, ?_, ?_⟩
      · intro c hc
        rcases List.mem_append.mp hc with hc | hc
        · exact Or.inr ⟨hw.2 c hc, ⟨w, by simp, hc⟩⟩
        · rcases List.mem_cons.mp hc with hc | hc
          · exact Or.inl hc
          · rcases ihh.1 c hc with hc2 | ⟨hc2, v, hv, hcv⟩
            · exact Or.inl hc2
            · exact Or.inr ⟨hc2, ⟨v, List.mem_cons_of_mem w hv, hcv⟩⟩
      · rw [List.chain'_append]
        refine ⟨?_, ?_, ?_⟩
        · exact chain'_noDbl_of_no_space fun c hc hsp =>
            by have := hw.2 c hc; rw [hsp] at this; simp [isPySpace] at this
        · rw [List.chain'_cons']
          refine ⟨?_, ihh.2.1⟩
          intro y hy
          intro hcon
          have := ihh.2.2.1 y hy
          rw [hcon.2] at this
          simp [isPySpace] at this
        · intro x hx y hy
          simp only [List.head?_cons, Option.mem_def, Option.some.injEq] at hy
          subst hy
          intro hcon
          have := hw.2 x (List.mem_of_mem_getLast? hx)
          rw [hcon.1] at this
          simp [isPySpace] at this
      · intro c hc
        rw [List.head?_append_of_ne_nil w hw.1] at hc
        exact hw.2 c (List.mem_of_mem_head? hc)
      · intro c hc
        rw [List.getLast?_append_of_ne_nil w (by simp)] at hc
        obtain ⟨x, rest, hxr⟩ := List.exists_cons_of_ne_nil hne2
        rw [hxr, List.getLast?_cons_cons] at hc
        apply ihh.2.2.2.1 c
        rw [hxr]
        exact hc
      · intro _
        intro hcon
        have := List.append_eq_nil.mp hcon
        simp at this

theorem collapsed_props (s : Str) :
    (∀ c ∈ collapseSpaces s, c = ' ' ∨ (isPySpace c = false ∧ c ∈ s)) ∧
      List.Chain' noDblSpace (collapseSpaces s) ∧
      (∀ c ∈ (collapseSpaces s).head?, isPySpace c = false) ∧
      (∀ c ∈ (collapseSpaces s).getLast?, isPySpace c = false) := by
  have hw := pyWords_props s
  have hj := joinWith_space_props (pyWords s) fun w hmem =>
    ⟨(hw w hmem).1, fun c hc => ((hw w hmem).2 c hc).1⟩
  refine ⟨?_, hj.2.1, hj.2.2.1, hj.2.2.2.1⟩
  intro c hc
  rcases hj.1 c hc with h | ⟨hns, w, hwmem, hcw⟩
  · exact Or.inl h
  · exact Or.inr ⟨hns, ((hw w hwmem).2 c hcw).2⟩

theorem rsplit_length_le (x : Str) :
    (rsplitBeforeLastSpace x).length ≤ x.length := by
  unfold rsplitBeforeLastSpace
  split
  · rw [List.length_reverse]
    calc ((x.reverse.dropWhile fun c => !(c = ' ')).drop 1).length
        ≤ (x.reverse.dropWhile fun c => !(c = ' ')).length :=
          (List.drop_sublist 1 _).length_le
      _ ≤ x.reverse.length := (List.dropWhile_suffix _).sublist.length_le
      _ = x.length := List.length_reverse x
  · exact Nat.le_refl _

theorem head?_take_pos (l : Str) (n : Nat) (hn : 0 < n) :
    (l.take n).head? = l.head? := by
  cases l with
  | nil => simp
  | cons a l =>
    cases n with
    | zero => omega
    | succ n => simp [List.take]

theorem sanitize_props (title : Str) :
    (∀ c ∈ sanitize_filename title, isIllegalChar c = false) ∧
      (∀ c ∈ sanitize_filename title, isPySpace c = true → c = ' ') ∧
      List.Chain' noDblSpace (sanitize_filename title) ∧
      (sanitize_filename title).length ≤ 150 ∧
      (∀ c ∈ (sanitize_filename title).head?, isPySpace c = false) ∧
      (∀ c ∈ (sanitize_filename title).getLast?, isPySpace c = false) ∧
      (150 < (collapseSpaces (stripIllegalChars title)).length →
        ' ' ∈ (collapseSpaces (stripIllegalChars title)).take 150 →
        ∃ u, sanitize_filename title ++ ' ' :: u = collapseSpaces (stripIllegalChars title)) ∧
      (150 < (collapseSpaces (stripIllegalChars title)).length →
        ' ' ∉ (collapseSpaces (stripIllegalChars title)).take 150 →
        sanitize_filename title = (collapseSpaces (stripIllegalChars title)).take 150) := by
  have hcol := collapsed_props (stripIllegalChars title)
  set col := collapseSpaces (stripIllegalChars title) with hcoldef
  have hmemcol : ∀ c ∈ col, isIllegalChar c = false := by
    intro c hc
    rcases hcol.1 c hc with h | ⟨_, h⟩
    · subst h; rfl
    · exact (Bool.not_eq_true' _).mp (List.mem_filter.mp h).2
  have hspcol : ∀ c ∈ col, isPySpace c = true → c = ' ' := by
    intro c hc hsp
    rcases hcol.1 c hc with h | ⟨h, _⟩
    · exact h
    · rw [h] at hsp; exact absurd hsp (by simp)
  have hs2 : sanitize_filename title =
      pyStrip (if 150 < col.length then rsplitBeforeLastSpace (col.take 150) else col) := by
    rfl
  set s2 := if 150 < col.length then rsplitBeforeLastSpace (col.take 150) else col with hs2def
  have hs2sub : ∀ c ∈ s2, c ∈ col := by
    intro c hc
    rw [hs2def] at hc
    split at hc
    · unfold rsplitBeforeLastSpace at hc
      split at hc
      · rw [List.mem_reverse] at hc
        have := (List.drop_sublist 1 _).subset hc
        have := (List.dropWhile_suffix _).subset this
        rw [List.mem_reverse] at this
        exact List.take_subset 150 col this
      · exact List.take_subset 150 col hc
    · exact hc
  have hs2chain : List.Chain' noDblSpace s2 := by
    rw [hs2def]
    split
    · rename_i hlen
      have htk : List.Chain' noDblSpace (col.take 150) := hcol.2.1.take 150
      by_cases hsp : ' ' ∈ col.take 150
      · obtain ⟨t, ht, _⟩ := rsplit_spec _ hsp
        rw [ht] at htk
        exact (List.chain'_append.mp htk).1
      · unfold rsplitBeforeLastSpace
        rw [if_neg hsp]
        exact htk
    · exact hcol.2.1
  refine ⟨?_, ?_, ?_, ?_, ?_, ?_, ?_, ?_⟩
  · intro c hc
    rw [hs2] at hc
    exact hmemcol c (hs2sub c (pyStrip_subset _ c hc))
  · intro c hc
    rw [hs2] at hc
    exact hspcol c (hs2sub c (pyStrip_subset _ c hc))
  · rw [hs2]
    exact chain'_pyStrip hs2chain
  · rw [hs2]
    calc (pyStrip s2).length ≤ s2.length := pyStrip_length_le s2
      _ ≤ 150 := by
        rw [hs2def]
        split
        · calc (rsplitBeforeLastSpace (col.take 150)).length
              ≤ (col.take 150).length := rsplit_length_le _
            _ ≤ 150 := by simp
        · omega
  · rw [hs2]; exact pyStrip_head s2
  · rw [hs2]; exact pyStrip_getLast s2
  · intro hlen hsp
    have hset : s2 = rsplitBeforeLastSpace (col.take 150) := by
      rw [hs2def, if_pos hlen]
    obtain ⟨t, ht, htns⟩ := rsplit_spec _ hsp
    rw [← hset] at ht
    -- s2 is nonempty and starts like col
    have hcolne : col ≠ [] := by
      intro h0; rw [h0] at hlen; simp at hlen
    have hheadtake : (col.take 150).head? = col.head? := head?_take_pos col 150 (by omega)
    have hs2ne : s2 ≠ [] := by
      intro h0
      rw [h0, List.nil_append] at ht
      have : (col.take 150).head? = some ' ' := by rw [ht]; rfl
      rw [hheadtake] at this
      have := hcol.2.2.1 ' ' (by rw [this]; rfl)
      simp [isPySpace] at this
    have hs2head : ∀ c ∈ s2.head?, isPySpace c = false := by
      intro c hc
      have h1 : (col.take 150).head? = s2.head? := by
        rw [ht]; exact List.head?_append_of_ne_nil s2 hs2ne
      apply hcol.2.2.1 c
      rw [← hheadtake, h1]
      exact hc
    have hs2last : ∀ c ∈ s2.getLast?, isPySpace c = false := by
      intro c hc
      have htk : List.Chain' noDblSpace (col.take 150) := hcol.2.1.take 150
      rw [ht] at htk
      have hnsp : ¬ c = ' ' := by
        have := (List.chain'_append.mp htk).2.2 c hc ' ' (by rfl)
        intro hcc
        exact this ⟨hcc, rfl⟩
      by_cases hspc : isPySpace c = true
      · have hcmem : c ∈ col := by
          apply List.take_subset 150 col
          rw [ht]
          exact List.mem_append.mpr (Or.inl (List.mem_of_mem_getLast? hc))
        exact absurd (hspcol c hcmem hspc) hnsp
      · simpa using hspc
    have hstrip : pyStrip s2 = s2 := pyStrip_eq_self s2 hs2head hs2last
    refine ⟨t ++ col.drop 150, ?_⟩
    rw [hs2, hstrip]
    have : s2 ++ ' ' :: (t ++ col.drop 150) = (s2 ++ ' ' :: t) ++ col.drop 150 := by
      simp
    rw [this, ← ht, List.take_append_drop]
  · intro hlen hsp
    have hset : s2 = col.take 150 := by
      rw [hs2def, if_pos hlen]
      unfold rsplitBeforeLastSpace
      rw [if_neg hsp]
    have hnospace : ∀ c ∈ s2, isPySpace c = false := by
      intro c hc
      rw [hset] at hc
      by_cases hws : isPySpace c = true
      · have := hspcol c (List.take_subset 150 col hc) hws
        rw [this] at hc
        exact absurd hc hsp
      · simpa using hws
    have hstrip : pyStrip s2 = s2 :=
      pyStrip_eq_self s2
        (fun c hc => hnospace c (List.mem_of_mem_head? hc))
        (fun c hc => hnospace c (List.mem_of_mem_getLast? hc))
    rw [hs2, hstrip, hset]

/-! ### Properties of the progress ledger -/

theorem splitLinesAux_nil (acc : Str) :
    splitLinesAux [] acc = if acc = [] then [] else [acc.reverse] := rfl

theorem splitLinesAux_cons_nl (rest acc : Str) :
    splitLinesAux ('\n' :: rest) acc = acc.reverse :: splitLinesAux rest [] := by
  unfold splitLinesAux
  rw [if_pos rfl]
  cases rest <;> rfl

theorem splitLinesAux_cons_other (c : Char) (rest acc : Str) (hc : ¬ c = '\n') :
    splitLinesAux (c :: rest) acc = splitLinesAux rest (c :: acc) := by
  unfold splitLinesAux
  rw [if_neg hc]
  cases rest <;> rfl

theorem splitLinesAux_append_nl :
    ∀ (t : Str), t.getLast? = some '\n' →
      ∀ (u acc : Str), splitLinesAux (t ++ u) acc = splitLinesAux t acc ++ splitLinesAux u [] := by
  intro t
  induction t with
  | nil => intro h; simp at h
  | cons c t ih =>
    intro h u acc
    cases t with
    | nil =>
      simp only [List.getLast?_singleton, Option.some.injEq] at h
      subst h
      rw [List.cons_append, splitLinesAux_cons_nl, splitLinesAux_cons_nl]
      rw [splitLinesAux_nil, if_pos rfl]
      rfl
    | cons d t' =>
      rw [List.getLast?_cons_cons] at h
      by_cases hc : c = '\n'
      · subst hc
        rw [List.cons_append, splitLinesAux_cons_nl, splitLinesAux_cons_nl]
        rw [ih h]
        rfl
      · rw [List.cons_append, splitLinesAux_cons_other c _ _ hc,
          splitLinesAux_cons_other c _ _ hc]
        exact ih h u (c :: acc)

theorem splitLinesAux_no_nl_concat :
    ∀ (t : Str), (∀ c ∈ t, c ≠ '\n') →
      ∀ (u acc : Str), splitLinesAux (t ++ '\n' :: u) acc = (acc.reverse ++ t) :: splitLinesAux u [] := by
  intro t
  induction t with
  | nil =>
    intro _ u acc
    rw [List.nil_append, splitLinesAux_cons_nl]
    simp
  | cons c t ih =>
    intro h u acc
    have hc : ¬ c = '\n' := h c (List.mem_cons_self c t)
    rw [List.cons_append, splitLinesAux_cons_other c _ _ hc]
    rw [ih (fun x hx => h x (List.mem_cons_of_mem c hx)) u (c :: acc)]
    simp

theorem wfStore_some (t : Str) :
    wfStore (some t) = (decide (t = []) || decide (t.getLast? = some '\n')) := rfl

theorem wfStore_mark (store : Option Str) (k : Str) :
    wfStore (mark_date_as_completed store k) = true := by
  unfold mark_date_as_completed
  rw [wfStore_some, List.getLast?_concat]
  simp

theorem load_mark (store : Option Str) (k : Str) (hwf : wfStore store = true)
    (hnl : ∀ c ∈ k, c ≠ '\n') :
    load_completed_dates (mark_date_as_completed store k) =
      load_completed_dates store ++ [pyStrip k] := by
  have hk : splitLines (k ++ ['\n']) = [k] := by
    unfold splitLines
    rw [show k ++ ['\n'] = k ++ '\n' :: [] from rfl]
    rw [splitLinesAux_no_nl_concat k hnl [] []]
    rw [splitLinesAux_nil, if_pos rfl]
    rfl
  cases store with
  | none =>
    show (splitLines ([] ++ k ++ ['\n'])).map pyStrip = [] ++ [pyStrip k]
    rw [List.nil_append, List.nil_append, hk]
    rfl
  | some t =>
    rw [wfStore_some] at hwf
    simp only [Bool.or_eq_true, decide_eq_true_eq] at hwf
    show (splitLines (t ++ k ++ ['\n'])).map pyStrip =
      (splitLines t).map pyStrip ++ [pyStrip k]
    rcases hwf with h0 | hlastnl
    · subst h0
      rw [List.nil_append, hk]
      rfl
    · have hassoc : t ++ k ++ ['\n'] = t ++ (k ++ ['\n']) := by simp
      rw [hassoc]
      unfold splitLines
      rw [splitLinesAux_append_nl t hlastnl (k ++ ['\n']) []]
      have : splitLinesAux (k ++ ['\n']) [] = [k] := hk
      rw [this]
      simp

theorem digitChar_not_space (n : Nat) : isPySpace (digitChar n) = false := by
  match n with
  | 0 | 1 | 2 | 3 | 4 | 5 | 6 | 7 | 8 | 9 => rfl
  | n + 10 => rfl

theorem fmtDashed_no_space (d : Date) : ∀ c ∈ fmtDashed d, isPySpace c = false := by
  intro c hc
  unfold fmtDashed fmt4 fmt2 at hc
  simp only [List.cons_append, List.nil_append, List.mem_cons, List.not_mem_nil,
    or_false] at hc
  rcases hc with h | h | h | h | h | h | h | h | h | h <;> subst h <;>
    first
      | exact digitChar_not_space _
      | rfl

theorem fmtDashed_no_nl (d : Date) : ∀ c ∈ fmtDashed d, c ≠ '\n' := by
  intro c hc hcc
  have := fmtDashed_no_space d c hc
  rw [hcc] at this
  simp [isPySpace] at this

theorem pyStrip_fmtDashed (d : Date) : pyStrip (fmtDashed d) = fmtDashed d := by
  apply pyStrip_eq_self
  · intro c hc
    exact fmtDashed_no_space d c (List.mem_of_mem_head? hc)
  · intro c hc
    exact fmtDashed_no_space d c (List.mem_of_mem_getLast? hc)

theorem load_mark_fmtDashed (store : Option Str) (d : Date) (hwf : wfStore store = true) :
    load_completed_dates (mark_date_as_completed store (fmtDashed d)) =
      load_completed_dates store ++ [fmtDashed d] := by
  rw [load_mark store (fmtDashed d) hwf (fmtDashed_no_nl d), pyStrip_fmtDashed]

/-! ### Invariants of the pagination and day loops -/

theorem processEntry_same (env : Env) (day : Date) (st : CrawlState) (e : Entry) :
    (processEntry env day st e).1.ledger = st.ledger ∧
      (processEntry env day st e).1.apiLog = st.apiLog ∧
      (processEntry env day st e).1.errLog = st.errLog := by
  unfold processEntry
  rcases e with ⟨t, link⟩
  cases link with
  | none => exact ⟨rfl, rfl, rfl⟩
  | some url =>
    simp only []
    split
    · exact ⟨rfl, rfl, rfl⟩
    · split
      · exact ⟨rfl, rfl, rfl⟩
      · exact ⟨rfl, rfl, rfl⟩

theorem processEntry_dlLog_day (env : Env) (day : Date) (st : CrawlState) (e : Entry) :
    ∀ q ∈ (processEntry env day st e).1.dlLog, q ∈ st.dlLog ∨ q.1 = day := by
  unfold processEntry
  rcases e with ⟨t, link⟩
  cases link with
  | none => intro q hq; exact Or.inl hq
  | some url =>
    simp only []
    split
    · intro q hq; exact Or.inl hq
    · split
      · intro q hq
        simp only [List.mem_append, List.mem_singleton] at hq
        rcases hq with hq | hq
        · exact Or.inl hq
        · subst hq; exact Or.inr rfl
      · intro q hq
        simp only [List.mem_append, List.mem_singleton] at hq
        rcases hq with hq | hq
        · exact Or.inl hq
        · subst hq; exact Or.inr rfl

theorem processEntries_same (env : Env) (day : Date) :
    ∀ (es : List Entry) (st : CrawlState) (count : Nat),
      (processEntries env day st count es).1.ledger = st.ledger ∧
        (processEntries env day st count es).1.apiLog = st.apiLog ∧
        (processEntries env day st count es).1.errLog = st.errLog := by
  intro es
  induction es with
  | nil => intro st count; exact ⟨rfl, rfl, rfl⟩
  | cons e es ih =>
    intro st count
    have h1 := processEntry_same env day st e
    have h2 := ih (processEntry env day st e).1 (count + (processEntry env day st e).2)
    exact ⟨h2.1.trans h1.1, h2.2.1.trans h1.2.1, h2.2.2.trans h1.2.2⟩

theorem processEntries_dlLog_day (env : Env) (day : Date) :
    ∀ (es : List Entry) (st : CrawlState) (count : Nat),
      ∀ q ∈ (processEntries env day st count es).1.dlLog, q ∈ st.dlLog ∨ q.1 = day := by
  intro es
  induction es with
  | nil => intro st count q hq; exact Or.inl hq
  | cons e es ih =>
    intro st count q hq
    rcases ih (processEntry env day st e).1 (count + (processEntry env day st e).2) q hq with h | h
    · exact processEntry_dlLog_day env day st e q h
    · exact Or.inr h

theorem pageLoop_ledger (env : Env) (day : Date) :
    ∀ (fuel offset : Nat) (st : CrawlState) (count : Nat),
      (pageLoop env day fuel offset st count).1.ledger = st.ledger := by
  intro fuel
  induction fuel with
  | zero => intro offset st count; rfl
  | succ fuel ih =>
    intro offset st count
    unfold pageLoop
    cases env.pages day offset with
    | error e => rfl
    | ok entries =>
      simp only []
      split
      · rfl
      · split
        · exact (processEntries_same env day entries _ count).1
        · rw [ih]
          exact (processEntries_same env day entries _ count).1

theorem pageLoop_apiLog_day (env : Env) (day : Date) :
    ∀ (fuel offset : Nat) (st : CrawlState) (count : Nat),
      (∀ p ∈ (pageLoop env day fuel offset st count).1.apiLog, p ∈ st.apiLog ∨ p.1 = day) ∧
        (∀ q ∈ (pageLoop env day fuel offset st count).1.dlLog, q ∈ st.dlLog ∨ q.1 = day) := by
  intro fuel
  induction fuel with
  | zero => intro offset st count; exact ⟨fun p hp => Or.inl hp, fun q hq => Or.inl hq⟩
  | succ fuel ih =>
    intro offset st count
    have hstep : ∀ p : Date × Nat,
        p ∈ st.apiLog ++ [(day, offset)] → p ∈ st.apiLog ∨ p.1 = day := by
      intro p hp
      rcases List.mem_append.mp hp with h | h
      · exact Or.inl h
      · rw [List.mem_singleton] at h
        subst h
        exact Or.inr rfl
    unfold pageLoop
    cases env.pages day offset with
    | error e => exact ⟨hstep, fun q hq => Or.inl hq⟩
    | ok entries =>
      simp only []
      split
      · exact ⟨hstep, fun q hq => Or.inl hq⟩
      · split
        · constructor
          · intro p hp
            rw [(processEntries_same env day entries _ count).2.1] at hp
            exact hstep p hp
          · intro q hq
            rcases processEntries_dlLog_day env day _ _ _ q hq with h | h
            · exact Or.inl h
            · exact Or.inr h
        · constructor
          · intro p hp
            rcases (ih _ _ _).1 p hp with h | h
            · rw [(processEntries_same env day entries _ count).2.1] at h
              exact hstep p h
            · exact Or.inr h
          · intro q hq
            rcases (ih _ _ _).2 q hq with h | h
            · rcases processEntries_dlLog_day env day _ _ _ q h with h2 | h2
              · exact Or.inl h2
              · exact Or.inr h2
            · exact Or.inr h

theorem mainLoop_grow (env : Env) (pageFuel : Nat) (completed : List Str) (endD : Date) :
    ∀ (fuel : Nat) (cur : Date) (st : CrawlState) (total : Nat),
      wfStore st.ledger = true →
      wfStore (mainLoop env pageFuel completed endD fuel cur st total).1.ledger = true ∧
        ∀ k ∈ load_completed_dates st.ledger,
          k ∈ load_completed_dates (mainLoop env pageFuel completed endD fuel cur st total).1.ledger := by
  intro fuel
  induction fuel with
  | zero => intro cur st total hwf; exact ⟨hwf, fun k hk => hk⟩
  | succ fuel ih =>
    intro cur st total hwf
    unfold mainLoop
    split
    · split
      · exact ih (nextDate cur) st total hwf
      · set p := search_and_download_for_day env pageFuel cur st with hp
        have hpl : p.1.ledger = st.ledger := pageLoop_ledger env cur pageFuel 0 st 0
        set st2 : CrawlState :=
          { p.1 with ledger := mark_date_as_completed p.1.ledger (fmtDashed cur) } with hst2
        have hwf2 : wfStore st2.ledger = true := wfStore_mark p.1.ledger (fmtDashed cur)
        have hld : load_completed_dates st2.ledger =
            load_completed_dates st.ledger ++ [fmtDashed cur] := by
          show load_completed_dates (mark_date_as_completed p.1.ledger (fmtDashed cur)) = _
          rw [hpl]
          exact load_mark_fmtDashed st.ledger cur hwf
        obtain ⟨hA, hB⟩ := ih (nextDate cur) st2 (total + p.2) hwf2
        refine ⟨hA, ?_⟩
        intro k hk
        apply hB
        rw [hld]
        exact List.mem_append.mpr (Or.inl hk)
    · exact ⟨hwf, fun k hk => hk⟩

theorem mainLoop_marks (env : Env) (pageFuel : Nat) (completed : List Str) (endD : Date) :
    ∀ (fuel : Nat) (cur : Date) (st : CrawlState) (total : Nat),
      validDM cur = true → wfStore st.ledger = true →
      (∀ k ∈ completed, k ∈ load_completed_dates st.ledger) →
      loopDone fuel cur endD = true →
      ∀ d : Date, validDM d = true → dateLe cur d = true → dateLe d endD = true →
        fmtDashed d ∈
          load_completed_dates (mainLoop env pageFuel completed endD fuel cur st total).1.ledger := by
  intro fuel
  induction fuel with
  | zero =>
    intro cur st total _ _ _ hdone d _ hcd hde
    unfold loopDone at hdone
    rw [Bool.not_eq_true'] at hdone
    rw [dateLe_trans hcd hde] at hdone
    exact absurd hdone (by simp)
  | succ fuel ih =>
    intro cur st total hv hwf hsub hdone d hvd hcd hde
    unfold loopDone at hdone
    unfold mainLoop
    by_cases hcur : dateLe cur endD = true
    · rw [if_pos hcur] at hdone ⊢
      by_cases heq : cur = d
      · -- the target day is the current day
        subst heq
        split
        · rename_i hmem
          obtain ⟨_, hB⟩ := mainLoop_grow env pageFuel completed endD fuel (nextDate cur) st total hwf
          exact hB _ (hsub _ hmem)
        · set p := search_and_download_for_day env pageFuel cur st with hp
          have hpl : p.1.ledger = st.ledger := pageLoop_ledger env cur pageFuel 0 st 0
          set st2 : CrawlState :=
            { p.1 with ledger := mark_date_as_completed p.1.ledger (fmtDashed cur) } with hst2
          have hwf2 : wfStore st2.ledger = true := wfStore_mark p.1.ledger (fmtDashed cur)
          have hld : load_completed_dates st2.ledger =
              load_completed_dates st.ledger ++ [fmtDashed cur] := by
            show load_completed_dates (mark_date_as_completed p.1.ledger (fmtDashed cur)) = _
            rw [hpl]
            exact load_mark_fmtDashed st.ledger cur hwf
          obtain ⟨_, hB⟩ := mainLoop_grow env pageFuel completed endD fuel (nextDate cur) st2
            (total + p.2) hwf2
          apply hB
          rw [hld]
          exact List.mem_append.mpr (Or.inr (List.mem_singleton.mpr rfl))
      · -- the target day is strictly later; recurse
        have hnext : dateLe (nextDate cur) d = true := dateLe_next_of_lt hv hvd hcd heq
        have hvnext : validDM (nextDate cur) = true := validDM_nextDate hv
        split
        · exact ih (nextDate cur) st total hvnext hwf hsub hdone d hvd hnext hde
        · set p := search_and_download_for_day env pageFuel cur st with hp
          have hpl : p.1.ledger = st.ledger := pageLoop_ledger env cur pageFuel 0 st 0
          set st2 : CrawlState :=
            { p.1 with ledger := mark_date_as_completed p.1.ledger (fmtDashed cur) } with hst2
          have hwf2 : wfStore st2.ledger = true := wfStore_mark p.1.ledger (fmtDashed cur)
          have hld : load_completed_dates st2.ledger =
              load_completed_dates st.ledger ++ [fmtDashed cur] := by
            show load_completed_dates (mark_date_as_completed p.1.ledger (fmtDashed cur)) = _
            rw [hpl]
            exact load_mark_fmtDashed st.ledger cur hwf
          apply ih (nextDate cur) st2 (total + p.2) hvnext hwf2 ?_ hdone d hvd hnext hde
          intro k hk
          rw [hld]
          exact List.mem_append.mpr (Or.inl (hsub k hk))
    · exfalso
      rw [Bool.not_eq_true] at hcur
      have := dateLe_trans hcd hde
      rw [this] at hcur
      exact absurd hcur (by simp)

theorem mainLoop_skip_all (env : Env) (pageFuel : Nat) (completed : List Str) (endD : Date) :
    ∀ (fuel : Nat) (cur : Date) (st : CrawlState) (total : Nat),
      validDM cur = true →
      (∀ d : Date, validDM d = true → dateLe cur d = true → dateLe d endD = true →
        fmtDashed d ∈ completed) →
      mainLoop env pageFuel completed endD fuel cur st total = (st, total) := by
  intro fuel
  induction fuel with
  | zero => intro cur st total _ _; rfl
  | succ fuel ih =>
    intro cur st total hv hall
    unfold mainLoop
    split
    · rename_i hcur
      rw [if_pos (hall cur hv (dateLe_refl cur) hcur)]
      apply ih (nextDate cur) st total (validDM_nextDate hv)
      intro d hvd hcd hde
      exact hall d hvd (dateLe_trans (dateLe_self_next cur) hcd) hde
    · rfl

theorem mainLoop_completed_no_calls (env : Env) (pageFuel : Nat) (completed : List Str)
    (endD : Date) :
    ∀ (fuel : Nat) (cur : Date) (st : CrawlState) (total : Nat),
      (∀ p ∈ (mainLoop env pageFuel completed endD fuel cur st total).1.apiLog,
        p ∈ st.apiLog ∨ fmtDashed p.1 ∉ completed) ∧
        (∀ q ∈ (mainLoop env pageFuel completed endD fuel cur st total).1.dlLog,
          q ∈ st.dlLog ∨ fmtDashed q.1 ∉ completed) := by
  intro fuel
  induction fuel with
  | zero =>
    intro cur st total
    exact ⟨fun p hp => Or.inl hp, fun q hq => Or.inl hq⟩
  | succ fuel ih =>
    intro cur st total
    unfold mainLoop
    split
    · split
      · exact ih (nextDate cur) st total
      · rename_i hmem
        set p := search_and_download_for_day env pageFuel cur st with hp
        set st2 : CrawlState :=
          { p.1 with ledger := mark_date_as_completed p.1.ledger (fmtDashed cur) } with hst2
        constructor
        · intro q hq
          rcases (ih (nextDate cur) st2 (total + p.2)).1 q hq with h | h
          · -- q was already in the log after this day's pagination
            have hq2 : q ∈ p.1.apiLog := h
            rcases (pageLoop_apiLog_day env cur pageFuel 0 st 0).1 q hq2 with h2 | h2
            · exact Or.inl h2
            · right
              rw [h2]
              exact hmem
          · exact Or.inr h
        · intro q hq
          rcases (ih (nextDate cur) st2 (total + p.2)).2 q hq with h | h
          · have hq2 : q ∈ p.1.dlLog := h
            rcases (pageLoop_apiLog_day env cur pageFuel 0 st 0).2 q hq2 with h2 | h2
            · exact Or.inl h2
            · right
              rw [h2]
              exact hmem
          · exact Or.inr h
    · exact ⟨fun p hp => Or.inl hp, fun q hq => Or.inl hq⟩

/-! ### Properties of the index generator -/

theorem digitChar_spec (k : Nat) (h : k < 10) :
    isDigit (digitChar k) = true ∧ digitVal (digitChar k) = k := by
  interval_cases k <;> exact ⟨rfl, rfl⟩

theorem digitChar_ne_underscore (n : Nat) : ¬ digitChar n = '_' := by
  match n with
  | 0 | 1 | 2 | 3 | 4 | 5 | 6 | 7 | 8 | 9 => intro h; cases h
  | n + 10 => intro h; cases h

theorem fmtCompact_no_underscore (d : Date) : ∀ c ∈ fmtCompact d, ¬ c = '_' := by
  intro c hc
  unfold fmtCompact fmt4 fmt2 at hc
  simp only [List.cons_append, List.nil_append, List.mem_cons, List.not_mem_nil,
    or_false] at hc
  rcases hc with h | h | h | h | h | h | h | h <;> subst h <;>
    exact digitChar_ne_underscore _

theorem parseCompact_fmtCompact (d : Date) (hv : validDate d = true) :
    parseCompact (fmtCompact d) = some d := by
  simp only [validDate, validDM, Bool.and_eq_true, decide_eq_true_eq] at hv
  obtain ⟨⟨h1, h2⟩, ⟨⟨⟨h3, h4⟩, h5⟩, h6⟩⟩ := hv
  have hy1000 : d.year / 1000 % 10 < 10 := Nat.mod_lt _ (by omega)
  have hy100 : d.year / 100 % 10 < 10 := Nat.mod_lt _ (by omega)
  have hy10 : d.year / 10 % 10 < 10 := Nat.mod_lt _ (by omega)
  have hy1 : d.year % 10 < 10 := Nat.mod_lt _ (by omega)
  have hm10 : d.month / 10 % 10 < 10 := Nat.mod_lt _ (by omega)
  have hm1 : d.month % 10 < 10 := Nat.mod_lt _ (by omega)
  have hd10 : d.day / 10 % 10 < 10 := Nat.mod_lt _ (by omega)
  have hd1 : d.day % 10 < 10 := Nat.mod_lt _ (by omega)
  have hfc : fmtCompact d =
      [digitChar (d.year / 1000 % 10), digitChar (d.year / 100 % 10),
       digitChar (d.year / 10 % 10), digitChar (d.year % 10),
       digitChar (d.month / 10 % 10), digitChar (d.month % 10),
       digitChar (d.day / 10 % 10), digitChar (d.day % 10)] := rfl
  rw [hfc]
  show (if (isDigit (digitChar (d.year / 1000 % 10)) && isDigit (digitChar (d.year / 100 % 10)) &&
      isDigit (digitChar (d.year / 10 % 10)) && isDigit (digitChar (d.year % 10)) &&
      isDigit (digitChar (d.month / 10 % 10)) && isDigit (digitChar (d.month % 10)) &&
      isDigit (digitChar (d.day / 10 % 10)) && isDigit (digitChar (d.day % 10))) then
      checkDate (1000 * digitVal (digitChar (d.year / 1000 % 10)) +
          100 * digitVal (digitChar (d.year / 100 % 10)) +
          10 * digitVal (digitChar (d.year / 10 % 10)) + digitVal (digitChar (d.year % 10)))
        (10 * digitVal (digitChar (d.month / 10 % 10)) + digitVal (digitChar (d.month % 10)))
        (10 * digitVal (digitChar (d.day / 10 % 10)) + digitVal (digitChar (d.day % 10)))
    else none) = some d
  rw [if_pos (by
    simp only [Bool.and_eq_true]
    exact ⟨⟨⟨⟨⟨⟨⟨(digitChar_spec _ hy1000).1, (digitChar_spec _ hy100).1⟩,
      (digitChar_spec _ hy10).1⟩, (digitChar_spec _ hy1).1⟩,
      (digitChar_spec _ hm10).1⟩, (digitChar_spec _ hm1).1⟩,
      (digitChar_spec _ hd10).1⟩, (digitChar_spec _ hd1).1⟩)]
  rw [(digitChar_spec _ hy1000).2, (digitChar_spec _ hy100).2,
    (digitChar_spec _ hy10).2, (digitChar_spec _ hy1).2,
    (digitChar_spec _ hm10).2, (digitChar_spec _ hm1).2,
    (digitChar_spec _ hd10).2, (digitChar_spec _ hd1).2]
  have hyeq : 1000 * (d.year / 1000 % 10) + 100 * (d.year / 100 % 10) +
      10 * (d.year / 10 % 10) + d.year % 10 = d.year := by omega
  have hmeq : 10 * (d.month / 10 % 10) + d.month % 10 = d.month := by omega
  have hdim := daysInMonth_le d.year d.month
  have hdeq : 10 * (d.day / 10 % 10) + d.day % 10 = d.day := by omega
  rw [hyeq, hmeq, hdeq]
  unfold checkDate
  rw [if_pos (by exact ⟨by omega, by omega, h4, h5, h6⟩)]

theorem takeWhile_append_all (p : Char → Bool) (l₁ l₂ : Str)
    (h : ∀ c ∈ l₁, p c = true) :
    (l₁ ++ l₂).takeWhile p = l₁ ++ l₂.takeWhile p := by
  induction l₁ with
  | nil => simp
  | cons a l ih =>
    rw [List.cons_append, List.takeWhile_cons, if_pos (h a (List.mem_cons_self a l))]
    rw [ih (fun c hc => h c (List.mem_cons_of_mem a hc))]
    rfl

theorem dropWhile_append_all (p : Char → Bool) (l₁ l₂ : Str)
    (h : ∀ c ∈ l₁, p c = true) :
    (l₁ ++ l₂).dropWhile p = l₂.dropWhile p := by
  induction l₁ with
  | nil => simp
  | cons a l ih =>
    rw [List.cons_append, List.dropWhile_cons, if_pos (h a (List.mem_cons_self a l))]
    exact ih (fun c hc => h c (List.mem_cons_of_mem a hc))

theorem splitFirstUnderscore_shape (d : Date) (rest : Str) :
    splitFirstUnderscore (fmtCompact d ++ '_' :: rest) = some (fmtCompact d, rest) := by
  unfold splitFirstUnderscore
  have hmem : '_' ∈ fmtCompact d ++ '_' :: rest :=
    List.mem_append.mpr (Or.inr (List.mem_cons_self _ _))
  rw [if_pos hmem]
  have hall : ∀ c ∈ fmtCompact d, (!(c = '_')) = true := by
    intro c hc
    simpa using fmtCompact_no_underscore d c hc
  rw [takeWhile_append_all _ _ _ hall, dropWhile_append_all _ _ _ hall]
  rw [List.takeWhile_cons, List.dropWhile_cons]
  simp

theorem readmeItem_shape (d : Date) (rest : Str) (hv : validDate d = true) :
    readmeItem (fmtCompact d ++ '_' :: rest) = some (bulletLine d (removeExt rest)) := by
  unfold readmeItem
  rw [splitFirstUnderscore_shape]
  show (match parseCompact (fmtCompact d) with
    | none => none
    | some dd => some (bulletLine dd (removeExt rest))) = some (bulletLine d (removeExt rest))
  rw [parseCompact_fmtCompact d hv]

theorem endsWithPdf_shape (x rest : Str) (h : pdfExt.isSuffixOf rest = true) :
    endsWithPdf (x ++ '_' :: rest) = true := by
  unfold endsWithPdf
  rw [List.isSuffixOf_iff_suffix] at h ⊢
  obtain ⟨t, ht⟩ := h
  exact ⟨x ++ '_' :: t, by rw [← ht]; simp⟩

theorem filterMap_eq_map_of_some {α β : Type} (g : α → Option β) (dflt : β) :
    ∀ (l : List α), (∀ x ∈ l, (g x).isSome = true) →
      l.filterMap g = l.map (fun x => (g x).getD dflt) := by
  intro l
  induction l with
  | nil => intro _; rfl
  | cons a l ih =>
    intro h
    have ha := h a (List.mem_cons_self a l)
    rw [List.filterMap_cons, List.map_cons]
    cases hg : g a with
    | none => rw [hg] at ha; simp at ha
    | some b =>
      rw [ih (fun x hx => h x (List.mem_cons_of_mem a hx))]
      simp [hg]

theorem generate_some_eq (nowStr : Str) (names : List Str)
    (hne : (List.insertionSort descOrder (names.filter endsWithPdf)).filterMap readmeItem ≠ []) :
    generate_readme_content nowStr (some names) =
      headerText nowStr ++
        joinWith ['\n']
          ((List.insertionSort descOrder (names.filter endsWithPdf)).filterMap readmeItem) := by
  show (if (List.insertionSort descOrder (names.filter endsWithPdf)).filterMap readmeItem = []
      then headerText nowStr ++ ("No papers found in the 'paper' directory.").toList
      else headerText nowStr ++
        joinWith ['\n']
          ((List.insertionSort descOrder (names.filter endsWithPdf)).filterMap readmeItem)) = _
  rw [if_neg hne]

/-! ### Claim C3 and C10: sanitize_filename -/

/-- C3 (counterexample): the claim "truncation breaks only on a word boundary
(never mid-word)" is false on the code.  For the 151-character all-letter
title `'a' * 151`, the collapsed title is a single 151-character word,
`sanitize_filename` returns exactly its first 150 characters
(`rsplit(' ', 1)` finds no space and returns the whole slice), and no
word-boundary decomposition of the result exists: the cut falls mid-word. -/
theorem C3_counterexample :
    sanitize_filename (List.replicate 151 'a') = List.replicate 150 'a' ∧
      collapseSpaces (stripIllegalChars (List.replicate 151 'a')) = List.replicate 151 'a' ∧
      ¬ ∃ u : Str, sanitize_filename (List.replicate 151 'a') ++ ' ' :: u =
          collapseSpaces (stripIllegalChars (List.replicate 151 'a')) := by
  have e1 : sanitize_filename (List.replicate 151 'a') = List.replicate 150 'a' := by decide
  have e2 : collapseSpaces (stripIllegalChars (List.replicate 151 'a')) =
      List.replicate 151 'a' := by decide
  refine ⟨e1, e2, ?_⟩
  intro h
  obtain ⟨u, hu⟩ := h
  rw [e1, e2] at hu
  have h1 : (List.replicate 150 'a' ++ ' ' :: u)[150]? = (List.replicate 151 'a' : Str)[150]? := by
    rw [hu]
  rw [List.getElem?_append_right (by simp)] at h1
  simp at h1

/-- C3 (amended): for every title, `sanitize_filename` strips the characters
`\/*?:"<>|`, leaves `' '` as the only whitespace with no two adjacent spaces
(whitespace runs collapsed), returns at most 150 characters with no trailing
whitespace, and, when truncation occurs, breaks at a word boundary (the
result is followed by a space in the collapsed title) PROVIDED the first 150
collapsed characters contain a space; when they contain none the result is
exactly those 150 characters, a cut that may fall mid-word. -/
theorem C3_sanitize_amended (title : Str) :
    (∀ c ∈ sanitize_filename title, isIllegalChar c = false) ∧
      (∀ c ∈ sanitize_filename title, isPySpace c = true → c = ' ') ∧
      List.Chain' noDblSpace (sanitize_filename title) ∧
      (sanitize_filename title).length ≤ 150 ∧
      (∀ c ∈ (sanitize_filename title).getLast?, isPySpace c = false) ∧
      (150 < (collapseSpaces (stripIllegalChars title)).length →
        ' ' ∈ (collapseSpaces (stripIllegalChars title)).take 150 →
        ∃ u, sanitize_filename title ++ ' ' :: u = collapseSpaces (stripIllegalChars title)) ∧
      (150 < (collapseSpaces (stripIllegalChars title)).length →
        ' ' ∉ (collapseSpaces (stripIllegalChars title)).take 150 →
        sanitize_filename title = (collapseSpaces (stripIllegalChars title)).take 150) := by
  obtain ⟨h1, h2, h3, h4, _, h6, h7, h8⟩ := sanitize_props title
  exact ⟨h1, h2, h3, h4, h6, h7, h8⟩

/-- C3 (witness): a 160-character title whose 150th character falls inside the
final word truncates at the preceding space (the word boundary), and the
all-letter 151-character title cuts at exactly 150 characters. -/
theorem C3_sanitize_amended_witness :
    (∃ u, sanitize_filename (List.replicate 149 'b' ++ ' ' :: List.replicate 10 'c') ++ ' ' :: u =
        collapseSpaces (stripIllegalChars (List.replicate 149 'b' ++ ' ' :: List.replicate 10 'c'))) ∧
      sanitize_filename (List.replicate 151 'a') =
        (collapseSpaces (stripIllegalChars (List.replicate 151 'a'))).take 150 :=
  ⟨(C3_sanitize_amended (List.replicate 149 'b' ++ ' ' :: List.replicate 10 'c')).2.2.2.2.2.1
      (by decide) (by decide),
    (C3_sanitize_amended (List.replicate 151 'a')).2.2.2.2.2.2 (by decide) (by decide)⟩

/-- C10: for every title the sanitized result is at most 150 characters and
has no leading or trailing whitespace; and when the collapsed text exceeds
150 characters while its first 150 characters contain no space, the result
is exactly those 150 characters (a cut that may fall mid-word). -/
theorem C10_sanitize_bounds (title : Str) :
    (sanitize_filename title).length ≤ 150 ∧
      (∀ c ∈ (sanitize_filename title).head?, isPySpace c = false) ∧
      (∀ c ∈ (sanitize_filename title).getLast?, isPySpace c = false) ∧
      (150 < (collapseSpaces (stripIllegalChars title)).length →
        ' ' ∉ (collapseSpaces (stripIllegalChars title)).take 150 →
        sanitize_filename title = (collapseSpaces (stripIllegalChars title)).take 150) := by
  obtain ⟨_, _, _, h4, h5, h6, _, h8⟩ := sanitize_props title
  exact ⟨h4, h5, h6, h8⟩

/-- C10 (witness): evaluated at the all-letter 151-character title. -/
theorem C10_sanitize_bounds_witness :
    (sanitize_filename (List.replicate 151 'a')).length ≤ 150 ∧
      sanitize_filename (List.replicate 151 'a') =
        (collapseSpaces (stripIllegalChars (List.replicate 151 'a'))).take 150 :=
  ⟨(C10_sanitize_bounds (List.replicate 151 'a')).1,
    (C10_sanitize_bounds (List.replicate 151 'a')).2.2.2 (by decide) (by decide)⟩

/-! ### Claim C9: ledger round-trip -/

/-- C9 (counterexample): "starting from any backing-store state, mark then
load contains day_key and every previously stored key" fails on the code.
With a store whose text is `"2025-01-01"` (no trailing newline — a possible
backing-store state), `mark("2025-01-02")` appends to the last line, and the
reloaded set contains the merged line `"2025-01-012025-01-02"` only: neither
the new key nor the previously stored one. -/
theorem C9_counterexample :
    ("2025-01-01").toList ∈ load_completed_dates (some (("2025-01-01").toList)) ∧
      ("2025-01-02").toList ∉
        load_completed_dates
          (mark_date_as_completed (some (("2025-01-01").toList)) (("2025-01-02").toList)) ∧
      ("2025-01-01").toList ∉
        load_completed_dates
          (mark_date_as_completed (some (("2025-01-01").toList)) (("2025-01-02").toList)) ∧
      load_completed_dates
          (mark_date_as_completed (some (("2025-01-01").toList)) (("2025-01-02").toList)) =
        [("2025-01-012025-01-02").toList] := by
  refine ⟨by decide, by decide, by decide, by decide⟩

/-- C9 (amended): the Progress Ledger round-trips from every backing-store
state the program itself can produce — a missing, empty, or
newline-terminated store — for every day key that is strip-invariant and
newline-free (every `YYYY-MM-DD` key is): after `mark(day)`, `load` contains
`day` and every previously stored key. -/
theorem C9_ledger_roundtrip (store : Option Str) (day : Str)
    (hwf : wfStore store = true) (hnl : ∀ c ∈ day, c ≠ '\n')
    (hstrip : pyStrip day = day) :
    day ∈ load_completed_dates (mark_date_as_completed store day) ∧
      ∀ k ∈ load_completed_dates store,
        k ∈ load_completed_dates (mark_date_as_completed store day) := by
  rw [load_mark store day hwf hnl, hstrip]
  constructor
  · exact List.mem_append.mpr (Or.inr (List.mem_singleton.mpr rfl))
  · intro k hk
    exact List.mem_append.mpr (Or.inl hk)

/-- C9 (witness): a newline-terminated store holding `2025-01-01`, marking
`2025-01-02`. -/
theorem C9_ledger_roundtrip_witness :
    ("2025-01-02").toList ∈
      load_completed_dates
        (mark_date_as_completed (some (("2025-01-01\n").toList)) (("2025-01-02").toList)) ∧
      ("2025-01-01").toList ∈
        load_completed_dates
          (mark_date_as_completed (some (("2025-01-01\n").toList)) (("2025-01-02").toList)) := by
  have h := C9_ledger_roundtrip (some (("2025-01-01\n").toList)) (("2025-01-02").toList)
    (by decide) (by decide) (by decide)
  exact ⟨h.1, h.2 (("2025-01-01").toList) (by decide)⟩

/-! ### Claim C1: fatal pagination errors and the day marker -/


/-- C1: contrary to the claim (and to the spec's §3 invariant), a transport /
decode error while paginating does NOT leave the day unmarked.  Evaluating
the day driver on a single day whose very first page request fails: the error
is logged (the page loop breaks, nothing is downloaded), yet the day's key IS
written to the Progress Ledger, because `main` calls
`mark_date_as_completed` unconditionally after `search_and_download_for_day`
returns (the `except` clauses at `main.py` lines 124-129 `break` instead of
re-raising). -/
theorem C1_error_day_still_marked :
    (runMain envErr 1 1 ⟨2025, 3, 4⟩ ⟨2025, 3, 4⟩ emptyState).1.errLog = [(⟨2025, 3, 4⟩, 0)] ∧
      fmtDashed ⟨2025, 3, 4⟩ ∈
        load_completed_dates (runMain envErr 1 1 ⟨2025, 3, 4⟩ ⟨2025, 3, 4⟩ emptyState).1.ledger ∧
      (runMain envErr 1 1 ⟨2025, 3, 4⟩ ⟨2025, 3, 4⟩ emptyState).1.files = [] ∧
      (runMain envErr 1 1 ⟨2025, 3, 4⟩ ⟨2025, 3, 4⟩ emptyState).2 = 0 := by
  refine ⟨by decide, by decide, by decide, by decide⟩

/-! ### Claim C5: whole-year mode stop-early filter (spec-modelled) -/

/-- C5: in whole-year mode, on a page whose records all carry years at or
above the target until a first older record `y`, every target-year record is
classified evaluate-for-download, the first older record yields
StopPagination, and nothing after it is evaluated: the scan result covers
exactly the records before `y` plus `(y, StopPagination)`, independently of
`post`. -/
theorem C5_year_filter (target : Nat) (pre : List Nat) (y : Nat) (post : List Nat)
    (hpre : ∀ x ∈ pre, target ≤ x) (hy : y < target) :
    scanYearPage target (pre ++ y :: post) =
      pre.map (fun x => (x, classifyYear target x)) ++ [(y, YearDecision.stopPagination)] ∧
      (∀ x ∈ pre, x = target → classifyYear target x = YearDecision.evaluate) := by
  constructor
  · induction pre with
    | nil =>
      rw [List.nil_append, List.map_nil, List.nil_append]
      have hc : classifyYear target y = YearDecision.stopPagination := by
        unfold classifyYear
        rw [if_neg (by omega), if_pos hy]
      simp [scanYearPage, hc]
    | cons a pre ih =>
      have ha : target ≤ a := hpre a (List.mem_cons_self a pre)
      have hcne : ¬ classifyYear target a = YearDecision.stopPagination := by
        unfold classifyYear
        by_cases he : a = target
        · rw [if_pos he]
          intro h
          cases h
        · rw [if_neg he, if_neg (by omega)]
          intro h
          cases h
      rw [List.cons_append]
      simp only [scanYearPage]
      rw [if_neg hcne]
      rw [ih (fun x hx => hpre x (List.mem_cons_of_mem a hx))]
      rw [List.map_cons, List.cons_append]
  · intro x _ hxe
    unfold classifyYear
    rw [if_pos hxe]

/-- C5 (witness): the spec's concrete scenario — target year 2025, page
years `[2025, 2025, 2024, 2025]` — evaluates the first two records, stops at
the third, and never evaluates the fourth. -/
theorem C5_year_filter_witness :
    scanYearPage 2025 [2025, 2025, 2024, 2025] =
      [(2025, YearDecision.evaluate), (2025, YearDecision.evaluate),
        (2024, YearDecision.stopPagination)] := by
  have h := (C5_year_filter 2025 [2025, 2025] 2024 [2025] (by decide) (by decide)).1
  show scanYearPage 2025 ([2025, 2025] ++ 2024 :: [2025]) = _
  rw [h]
  decide

/-! ### Claim C4: pagination termination -/

theorem pageLoop_succ_ok (env : Env) (day : Date) (fuel offset : Nat) (st : CrawlState)
    (count : Nat) (es : List Entry) (hp : env.pages day offset = Except.ok es) :
    pageLoop env day (fuel + 1) offset st count =
      (if es = [] then ({ st with apiLog := st.apiLog ++ [(day, offset)] }, count)
       else
        (if es.length < RESULTS_PER_REQUEST
         then processEntries env day { st with apiLog := st.apiLog ++ [(day, offset)] } count es
         else pageLoop env day fuel (offset + es.length)
           (processEntries env day { st with apiLog := st.apiLog ++ [(day, offset)] } count es).1
           (processEntries env day { st with apiLog := st.apiLog ++ [(day, offset)] } count es).2)) := by
  have hunf : pageLoop env day (fuel + 1) offset st count =
      (let st0 : CrawlState := { st with apiLog := st.apiLog ++ [(day, offset)] }
       match env.pages day offset with
       | Except.error _ => ({ st0 with errLog := st0.errLog ++ [(day, offset)] }, count)
       | Except.ok entries =>
         if entries = [] then (st0, count)
         else
           let p := processEntries env day st0 count entries
           if entries.length < RESULTS_PER_REQUEST then p
           else pageLoop env day fuel (offset + entries.length) p.1 p.2) := rfl
  rw [hunf, hp]

theorem pageLoop_apiLog_ext (env : Env) (day : Date) :
    ∀ (fuel offset : Nat) (st : CrawlState) (count : Nat),
      ∃ l, (pageLoop env day fuel offset st count).1.apiLog = st.apiLog ++ l := by
  intro fuel
  induction fuel with
  | zero =>
    intro offset st count
    exact ⟨[], (List.append_nil st.apiLog).symm⟩
  | succ fuel ih =>
    intro offset st count
    unfold pageLoop
    cases env.pages day offset with
    | error e => exact ⟨[(day, offset)], rfl⟩
    | ok entries =>
      simp only []
      split
      · exact ⟨[(day, offset)], rfl⟩
      · split
        · refine ⟨[(day, offset)], ?_⟩
          rw [(processEntries_same env day entries _ count).2.1]
        · obtain ⟨l, hl⟩ := ih (offset + entries.length) _ _
          refine ⟨[(day, offset)] ++ l, ?_⟩
          rw [hl, (processEntries_same env day entries _ count).2.1]
          simp

theorem pageLoop_logs_first (env : Env) (day : Date) (fuel offset : Nat) (st : CrawlState)
    (count : Nat) :
    (day, offset) ∈ (pageLoop env day (fuel + 1) offset st count).1.apiLog := by
  have hmem : (day, offset) ∈ st.apiLog ++ [(day, offset)] :=
    List.mem_append.mpr (Or.inr (List.mem_singleton.mpr rfl))
  unfold pageLoop
  cases env.pages day offset with
  | error e => exact hmem
  | ok entries =>
    simp only []
    split
    · exact hmem
    · split
      · rw [(processEntries_same env day entries _ count).2.1]
        exact hmem
      · obtain ⟨l, hl⟩ := pageLoop_apiLog_ext env day fuel (offset + entries.length) _ _
        rw [hl, (processEntries_same env day entries _ count).2.1]
        exact List.mem_append.mpr (Or.inl hmem)

/-- C4: for a day-scoped query page at `start = offset` that decodes to
`es`, pagination stops exactly when `es` is empty or shorter than the
requested page size of 100 — the request log then ends at `(day, offset)` —
and otherwise the offset advances by `es.length` and another page is
requested at `(day, offset + es.length)`. -/
theorem C4_pagination (env : Env) (day : Date) (fuel offset : Nat) (st : CrawlState)
    (count : Nat) (es : List Entry) (hp : env.pages day offset = Except.ok es) :
    (es.length < RESULTS_PER_REQUEST →
      (pageLoop env day (fuel + 1) offset st count).1.apiLog = st.apiLog ++ [(day, offset)]) ∧
      (¬ es.length < RESULTS_PER_REQUEST →
        (day, offset + es.length) ∈ (pageLoop env day (fuel + 2) offset st count).1.apiLog) := by
  constructor
  · intro hlt
    rw [pageLoop_succ_ok env day fuel offset st count es hp]
    by_cases he : es = []
    · rw [if_pos he]
    · rw [if_neg he, if_pos hlt]
      rw [(processEntries_same env day es _ count).2.1]
  · intro hge
    have he : es ≠ [] := by
      intro h0
      rw [h0] at hge
      exact hge (by decide)
    rw [pageLoop_succ_ok env day (fuel + 1) offset st count es hp]
    rw [if_neg he, if_neg hge]
    exact pageLoop_logs_first env day fuel (offset + es.length) _ _


/-- C4 (witness): a short page (1 record) ends the request log at offset 0;
a full page of 100 records causes a further request at offset 100. -/
theorem C4_pagination_witness :
    (pageLoop envShort ⟨2025, 1, 6⟩ 1 0 emptyState 0).1.apiLog = [(⟨2025, 1, 6⟩, 0)] ∧
      (⟨2025, 1, 6⟩, (0 : Nat) + (List.replicate 100 (⟨('t' :: []), none⟩ : Entry)).length) ∈
        (pageLoop envFull ⟨2025, 1, 6⟩ 2 0 emptyState 0).1.apiLog := by
  constructor
  · have h := (C4_pagination envShort ⟨2025, 1, 6⟩ 0 0 emptyState 0
      [⟨('t' :: []), none⟩] rfl).1 (by decide)
    rw [h]
    rfl
  · exact (C4_pagination envFull ⟨2025, 1, 6⟩ 0 0 emptyState 0
      (List.replicate 100 ⟨('t' :: []), none⟩) rfl).2 (by decide)

/-! ### Claim C6: per-record failures never abort pagination -/

theorem processEntry_fail (env : Env) (day : Date) (st : CrawlState) (e : Entry)
    (h : e.pdfLink = none ∨ ∃ url, e.pdfLink = some url ∧ env.dlOk url = false) :
    (processEntry env day st e).1.files = st.files ∧ (processEntry env day st e).2 = 0 := by
  unfold processEntry
  rcases e with ⟨t, link⟩
  cases link with
  | none => exact ⟨rfl, rfl⟩
  | some url =>
    simp only []
    split
    · exact ⟨rfl, rfl⟩
    · rcases h with h | ⟨url2, h2, hdl⟩
      · cases h
      · have : url2 = url := by
          simp only [Option.some.injEq] at h2
          exact h2.symm
        subst this
        rw [if_neg (by rw [hdl]; simp)]
        exact ⟨rfl, rfl⟩

theorem processEntries_fail (env : Env) (day : Date) :
    ∀ (es : List Entry) (st : CrawlState) (count : Nat),
      (∀ x ∈ es, x.pdfLink = none ∨ ∃ url, x.pdfLink = some url ∧ env.dlOk url = false) →
      (processEntries env day st count es).1.files = st.files ∧
        (processEntries env day st count es).2 = count := by
  intro es
  induction es with
  | nil => intro st count _; exact ⟨rfl, rfl⟩
  | cons e es ih =>
    intro st count h
    have he := processEntry_fail env day st e (h e (List.mem_cons_self e es))
    obtain ⟨h1, h2⟩ := ih (processEntry env day st e).1 (count + (processEntry env day st e).2)
      (fun x hx => h x (List.mem_cons_of_mem e hx))
    refine ⟨h1.trans he.1, ?_⟩
    show (processEntries env day (processEntry env day st e).1
      (count + (processEntry env day st e).2) es).2 = count
    rw [h2, he.2]
    omega

/-- C6: per-record failures never abort pagination.  A record with no PDF
link only appends a warning and leaves everything else unchanged; a record
whose artifact download fails only logs the attempted request; a page all of
whose records fail is still processed to its end with no file written and an
unchanged download counter; and a full page (100 records) of such failures
still leads to the next page request at `offset + 100`. -/
theorem C6_per_record (env : Env) (day : Date) (st : CrawlState) (e : Entry)
    (offset fuel count : Nat) (es : List Entry) :
    (e.pdfLink = none →
      processEntry env day st e =
        ({ st with warnLog := st.warnLog ++ [extractTitle e.title] }, 0)) ∧
      (∀ url, e.pdfLink = some url →
        entryFilename day (extractTitle e.title) ∉ st.files →
        env.dlOk url = false →
        processEntry env day st e = ({ st with dlLog := st.dlLog ++ [(day, url)] }, 0)) ∧
      ((∀ x ∈ es, x.pdfLink = none ∨ ∃ url, x.pdfLink = some url ∧ env.dlOk url = false) →
        (processEntries env day st count es).1.files = st.files ∧
          (processEntries env day st count es).2 = count) ∧
      (env.pages day offset = Except.ok es → es.length = RESULTS_PER_REQUEST →
        (∀ x ∈ es, x.pdfLink = none ∨ ∃ url, x.pdfLink = some url ∧ env.dlOk url = false) →
        (day, offset + es.length) ∈ (pageLoop env day (fuel + 2) offset st count).1.apiLog) := by
  refine ⟨?_, ?_, ?_, ?_⟩
  · intro hnone
    unfold processEntry
    rcases e with ⟨t, link⟩
    cases link with
    | none => rfl
    | some url => cases hnone
  · intro url hsome hnot hdl
    unfold processEntry
    rcases e with ⟨t, link⟩
    cases link with
    | none => cases hsome
    | some url2 =>
      have : url2 = url := by
        simp only [Option.some.injEq] at hsome
        exact hsome
      subst this
      simp only []
      rw [if_neg (by exact hnot), if_neg (by rw [hdl]; simp)]
  · exact processEntries_fail env day es st count
  · intro hp hlen _
    rw [pageLoop_succ_ok env day (fuel + 1) offset st count es hp]
    have he : es ≠ [] := by
      intro h0
      rw [h0] at hlen
      exact absurd hlen (by decide)
    have hge : ¬ es.length < RESULTS_PER_REQUEST := by
      rw [hlen]
      omega
    rw [if_neg he, if_neg hge]
    exact pageLoop_logs_first env day fuel (offset + es.length) _ _


/-- C6 (witness): on the all-failures page `esC6`, a missing-link record only
warns, a failing download only logs, the page is processed to its end with no
file written, and the next page is still requested at offset 100. -/
theorem C6_per_record_witness :
    processEntry envC6 ⟨2025, 1, 7⟩ emptyState ⟨('t' :: []), none⟩ =
        ({ emptyState with
            warnLog := emptyState.warnLog ++ [extractTitle ('t' :: [])] }, 0) ∧
      processEntry envC6 ⟨2025, 1, 7⟩ emptyState ⟨('t' :: []), some ('u' :: [])⟩ =
        ({ emptyState with
            dlLog := emptyState.dlLog ++ [(⟨2025, 1, 7⟩, ('u' :: []))] }, 0) ∧
      (processEntries envC6 ⟨2025, 1, 7⟩ emptyState 0 esC6).1.files = emptyState.files ∧
      (processEntries envC6 ⟨2025, 1, 7⟩ emptyState 0 esC6).2 = 0 ∧
      (⟨2025, 1, 7⟩, (0 : Nat) + esC6.length) ∈
        (pageLoop envC6 ⟨2025, 1, 7⟩ 2 0 emptyState 0).1.apiLog := by
  have h := C6_per_record envC6 ⟨2025, 1, 7⟩ emptyState ⟨('t' :: []), none⟩ 0 0 0 esC6
  have h2 := C6_per_record envC6 ⟨2025, 1, 7⟩ emptyState ⟨('t' :: []), some ('u' :: [])⟩ 0 0 0 esC6
  have hfail : ∀ x ∈ esC6, x.pdfLink = none ∨
      ∃ url, x.pdfLink = some url ∧ envC6.dlOk url = false := by decide
  refine ⟨h.1 rfl, h2.2.1 ('u' :: []) rfl (by decide) rfl, (h.2.2.1 hfail).1,
    (h.2.2.1 hfail).2, h.2.2.2 rfl (by decide) hfail⟩

/-! ### Claim C8: ledger-driven day skipping -/


/-- C8: a day whose `YYYY-MM-DD` key is in the set loaded from the ledger at
startup receives no search-API request and no artifact download in the whole
run; and, concretely, with `2025-01-01` in the log and the range
`[2025-01-01, 2025-01-03]`, the request log of the run is exactly one page
request for 2025-01-02 and one for 2025-01-03. -/
theorem C8_ledger_skip :
    (∀ (env : Env) (pageFuel fuel : Nat) (startD endD : Date) (st : CrawlState),
      st.apiLog = [] → st.dlLog = [] →
      ∀ d : Date, fmtDashed d ∈ load_completed_dates st.ledger →
        (∀ p ∈ (runMain env pageFuel fuel startD endD st).1.apiLog, p.1 ≠ d) ∧
          (∀ q ∈ (runMain env pageFuel fuel startD endD st).1.dlLog, q.1 ≠ d)) ∧
      (runMain envEmpty 1 5 ⟨2025, 1, 1⟩ ⟨2025, 1, 3⟩ stC8).1.apiLog =
        [(⟨2025, 1, 2⟩, 0), (⟨2025, 1, 3⟩, 0)] := by
  constructor
  · intro env pageFuel fuel startD endD st hapi hdl d hd
    have h := mainLoop_completed_no_calls env pageFuel (load_completed_dates st.ledger) endD
      fuel startD st 0
    constructor
    · intro p hp heq
      rcases h.1 p hp with h2 | h2
      · rw [hapi] at h2
        exact absurd h2 (List.not_mem_nil p)
      · rw [heq] at h2
        exact h2 hd
    · intro q hq heq
      rcases h.2 q hq with h2 | h2
      · rw [hdl] at h2
        exact absurd h2 (List.not_mem_nil q)
      · rw [heq] at h2
        exact h2 hd
  · decide

/-- C8 (witness): in the concrete scenario, no request is ever issued for the
already-ledgered day 2025-01-01. -/
theorem C8_ledger_skip_witness :
    ((⟨2025, 1, 1⟩ : Date), 0) ∉
      (runMain envEmpty 1 5 ⟨2025, 1, 1⟩ ⟨2025, 1, 3⟩ stC8).1.apiLog := by
  intro h
  exact (C8_ledger_skip.1 envEmpty 1 5 ⟨2025, 1, 1⟩ ⟨2025, 1, 3⟩ stC8 rfl rfl
    ⟨2025, 1, 1⟩ (by decide)).1 (⟨2025, 1, 1⟩, 0) h rfl

/-! ### Claim C2: idempotence -/

/-- C2: (i) a record whose derived filename already exists in the output
directory is skipped with no download request and no state change at all;
(ii) after a completed run, running the day driver again on the unchanged
environment and the state the first run left produces zero new downloads and
returns the state unchanged — in particular the ledger text, the file set and
every log are identical, so the set of processed days is unchanged in
content. -/
theorem C2_idempotent :
    (∀ (env : Env) (day : Date) (st : CrawlState) (e : Entry) (url : Str),
      e.pdfLink = some url →
      entryFilename day (extractTitle e.title) ∈ st.files →
      processEntry env day st e = (st, 0)) ∧
      (∀ (env : Env) (pageFuel fuel1 fuel2 : Nat) (startD endD : Date) (st0 : CrawlState),
        validDM startD = true → wfStore st0.ledger = true →
        loopDone fuel1 startD endD = true →
        runMain env pageFuel fuel2 startD endD (runMain env pageFuel fuel1 startD endD st0).1 =
          ((runMain env pageFuel fuel1 startD endD st0).1, 0)) := by
  constructor
  · intro env day st e url hsome hmem
    unfold processEntry
    rcases e with ⟨t, link⟩
    cases link with
    | none => cases hsome
    | some url2 =>
      have : url2 = url := by
        simp only [Option.some.injEq] at hsome
        exact hsome
      subst this
      simp only []
      rw [if_pos (by exact hmem)]
  · intro env pageFuel fuel1 fuel2 startD endD st0 hv hwf hdone
    have hmarks := mainLoop_marks env pageFuel (load_completed_dates st0.ledger) endD fuel1
      startD st0 0 hv hwf (fun k hk => hk) hdone
    unfold runMain
    apply mainLoop_skip_all env pageFuel _ endD fuel2 startD _ 0 hv
    intro d hvd hcd hde
    exact hmarks d hvd hcd hde


/-- C2 (witness): the dedup gate at a concrete state holding the derived
filename, and a concrete completed run over one day re-run with no effect. -/
theorem C2_idempotent_witness :
    processEntry envC2 ⟨2025, 1, 1⟩ stC2 ⟨('A' :: ' ' :: 'P' :: []), some ('u' :: [])⟩ =
        (stC2, 0) ∧
      runMain envC2 1 2 ⟨2025, 1, 1⟩ ⟨2025, 1, 1⟩
          (runMain envC2 1 2 ⟨2025, 1, 1⟩ ⟨2025, 1, 1⟩ emptyState).1 =
        ((runMain envC2 1 2 ⟨2025, 1, 1⟩ ⟨2025, 1, 1⟩ emptyState).1, 0) :=
  ⟨C2_idempotent.1 envC2 ⟨2025, 1, 1⟩ stC2 ⟨('A' :: ' ' :: 'P' :: []), some ('u' :: [])⟩
      ('u' :: []) rfl (by decide),
    C2_idempotent.2 envC2 1 2 2 ⟨2025, 1, 1⟩ ⟨2025, 1, 1⟩ emptyState (by decide) (by decide)
      (by decide)⟩

/-! ### Claim C7: the generated index -/

/-- C7: for a non-empty output directory whose file names all have the
fetcher's shape `YYYYMMDD_<title>.pdf`, the generated document is the fixed
header followed by exactly one bullet line per artifact file, newline-joined
in descending filename order (`sorted(..., reverse=True)`): the listing is a
sorted permutation of the directory, and each line is
`- **YYYY-MM-DD**: title` with the date parsed from the `YYYYMMDD` prefix
and the title obtained by splitting on the first underscore and dropping the
extension. -/
theorem C7_readme_index (nowStr : Str) (names : List Str) (hne : names ≠ [])
    (hwf : ∀ f ∈ names, ∃ (d : Date) (rest : Str), validDate d = true ∧
      f = fmtCompact d ++ '_' :: rest ∧ pdfExt.isSuffixOf rest = true) :
    generate_readme_content nowStr (some names) =
      headerText nowStr ++
        joinWith ['\n']
          ((List.insertionSort descOrder names).map (fun f => (readmeItem f).getD [])) ∧
      List.Sorted descOrder (List.insertionSort descOrder names) ∧
      List.Perm (List.insertionSort descOrder names) names ∧
      (∀ (d : Date) (rest : Str), validDate d = true →
        readmeItem (fmtCompact d ++ '_' :: rest) = some (bulletLine d (removeExt rest))) := by
  have hperm := List.perm_insertionSort descOrder names
  have hfilter : names.filter endsWithPdf = names := by
    apply List.filter_eq_self.mpr
    intro f hf
    obtain ⟨d, rest, _, hshape, hsuf⟩ := hwf f hf
    rw [hshape]
    exact endsWithPdf_shape (fmtCompact d) rest hsuf
  have hsome : ∀ f ∈ List.insertionSort descOrder names, (readmeItem f).isSome = true := by
    intro f hf
    obtain ⟨d, rest, hv, hshape, _⟩ := hwf f (hperm.mem_iff.mp hf)
    rw [hshape, readmeItem_shape d rest hv]
    rfl
  have hmap := filterMap_eq_map_of_some readmeItem [] (List.insertionSort descOrder names) hsome
  have hsortne : List.insertionSort descOrder names ≠ [] := by
    intro h0
    have hlen := hperm.length_eq
    rw [h0] at hlen
    exact hne (List.eq_nil_of_length_eq_zero hlen.symm)
  have hne2 : (List.insertionSort descOrder (names.filter endsWithPdf)).filterMap
      readmeItem ≠ [] := by
    rw [hfilter, hmap]
    intro h0
    have := congrArg List.length h0
    rw [List.length_map] at this
    exact hsortne (List.eq_nil_of_length_eq_zero this)
  refine ⟨?_, List.sorted_insertionSort descOrder names, hperm,
    fun d rest hv => readmeItem_shape d rest hv⟩
  calc generate_readme_content nowStr (some names)
      = headerText nowStr ++
          joinWith ['\n']
            ((List.insertionSort descOrder (names.filter endsWithPdf)).filterMap readmeItem) :=
        generate_some_eq nowStr names hne2
    _ = headerText nowStr ++
          joinWith ['\n']
            ((List.insertionSort descOrder names).map (fun f => (readmeItem f).getD [])) := by
        rw [hfilter, hmap]

/-- C7 (witness): the spec's scenario — files `20250103_B.pdf` and
`20250101_A.pdf` — lists `2025-01-03` before `2025-01-01`, each line in the
`- **YYYY-MM-DD**: title` format. -/
theorem C7_readme_index_witness :
    generate_readme_content (("now").toList)
        (some [("20250101_A.pdf").toList, ("20250103_B.pdf").toList]) =
      headerText (("now").toList) ++
        ("- **2025-01-03**: B\n- **2025-01-01**: A").toList := by
  have h := (C7_readme_index (("now").toList)
    [("20250101_A.pdf").toList, ("20250103_B.pdf").toList]
    (by decide)
    (by
      intro f hf
      rcases List.mem_cons.mp hf with h | h
      · subst h
        exact ⟨⟨2025, 1, 1⟩, ("A.pdf").toList, by decide, by decide, by decide⟩
      · rcases List.mem_cons.mp h with h2 | h2
        · subst h2
          exact ⟨⟨2025, 1, 3⟩, ("B.pdf").toList, by decide, by decide, by decide⟩
        · exact absurd h2 (List.not_mem_nil f))).1
  rw [h]
  decide
